import Mathlib

/-! Chained hash map (`src/hash_map.h`)

A shallow embedding of the `HashMap<KeyType, ValueType, Hash>` class template and
of its two-level `Iterator`, followed by the properties proved about them.

Modelling conventions.

* `vector<vector<value_type>> table` is a `List (List (K × V))`; a chain is a
  `List (K × V)`; `push_back` appends at the end.
* The hasher is an explicit parameter `H : K → Nat` of every operation that
  hashes a key.
* `size_t` values that count stored objects (`number`, `table.size()`, chain
  sizes, indices) are natural numbers: they are bounded by the memory that holds
  the objects.  The two products of `fit_load` with the user-settable thresholds
  `_maxload` and `_minload` are taken modulo `2 ^ 64` (`mulSize`), because
  `set_maxload` and `set_minload` accept any `size_t`.
* A C++ iterator into the bucket array is the index of the bucket; an iterator
  into a chain is the index inside that chain.
* With an empty bucket array the C++ code evaluates `% 0` and indexes out of
  range; the embedding is total there (`%` and `List.getD` give fixed values)
  but every statement below about such operations assumes at least one bucket.
-/

set_option autoImplicit false
set_option linter.unusedSectionVars false
set_option linter.unusedVariables false

universe u v

/-! ## Data model -/

/-- The failure modes of `HashMap::at`: the exception `std::out_of_range`, and
the dereference of an iterator that points at no entry. -/
inductive Exception where
  | out_of_range
  | invalid_dereference
  deriving DecidableEq, Repr

/-- Fields of `class HashMap`: `table`, `number`, `_maxload`, `_minload`
(the hasher is a parameter of the operations). -/
structure HashMap (K : Type u) (V : Type v) where
  table : List (List (K × V))
  number : Nat
  maxload : Nat
  minload : Nat
  deriving DecidableEq, Repr

/-- Fields of `class Iterator` (and of `Const_iterator`): `id`, `last`, `pos`. -/
structure Iterator where
  id : Nat
  last : Nat
  pos : Nat
  deriving DecidableEq, Repr

/-- Multiplication of two `size_t` values on a 64-bit target. -/
def mulSize (a b : Nat) : Nat := (a * b) % 2 ^ 64

/-- `_multiplicator`. -/
def multiplicator : Nat := 2

section Model

variable {K : Type u} {V : Type v}

/-- The chain `table[id]`. -/
def chainAt (table : List (List (K × V))) (id : Nat) : List (K × V) :=
  table.getD id []

/-- The statement `table[id].push_back(p)`. -/
def push_back_at (table : List (List (K × V))) (id : Nat) (p : K × V) :
    List (List (K × V)) :=
  table.set id (chainAt table id ++ [p])

/-! ## Iterator -/

/-- The loop `while (pos == id->end() && id != last) { ++id; pos = id->begin(); }`
of the iterator constructor and of `operator++`, run for at most `fuel`
iterations. -/
def Iterator.skip (table : List (List (K × V))) (last : Nat) :
    Nat → Nat → Nat → Iterator
  | 0, id, pos => ⟨id, last, pos⟩
  | fuel + 1, id, pos =>
    if pos = (chainAt table id).length ∧ id ≠ last then
      Iterator.skip table last fuel (id + 1) 0
    else ⟨id, last, pos⟩

/-- The constructor `Iterator(_id, _last, _pos)`.  Every iteration of its loop
moves `id` one bucket forward, so `table.length` iterations are never exceeded
while `id` stays inside the bucket array. -/
def Iterator.construct (table : List (List (K × V))) (id last pos : Nat) : Iterator :=
  Iterator.skip table last table.length id pos

/-- The pre-increment `Iterator::operator++()`. -/
def Iterator.incr (table : List (List (K × V))) (it : Iterator) : Iterator :=
  if it.id = it.last ∧ it.pos = (chainAt table it.id).length then it
  else Iterator.skip table it.last table.length it.id (it.pos + 1)

/-- The dereference `Iterator::operator*()`: the entry at `pos` of chain `id`,
if there is one. -/
def Iterator.deref (table : List (List (K × V))) (it : Iterator) : Option (K × V) :=
  (chainAt table it.id).get? it.pos

/-- The comparison `Iterator::operator==`: `id == a.id && pos == a.pos`. -/
def Iterator.eq (a b : Iterator) : Bool :=
  decide (a.id = b.id ∧ a.pos = b.pos)

/-! ## Container -/

/-- The default constructor `HashMap(const Hash&)`: `table.resize(1)`. -/
def HashMap.new : HashMap K V :=
  { table := [[]], number := 0, maxload := 1, minload := 8 }

/-- The method `size()`. -/
def HashMap.size (s : HashMap K V) : Nat := s.number

/-- The method `empty()`. -/
def HashMap.empty (s : HashMap K V) : Bool := decide (s.number = 0)

/-- The method `set_maxload`. -/
def HashMap.set_maxload (s : HashMap K V) (load : Nat) : HashMap K V :=
  { s with maxload := load }

/-- The method `set_minload`. -/
def HashMap.set_minload (s : HashMap K V) (load : Nat) : HashMap K V :=
  { s with minload := load }

/-- The method `begin()`. -/
def HashMap.begin (s : HashMap K V) : Iterator :=
  Iterator.construct s.table 0 (s.table.length - 1) 0

/-- The method `end()`. -/
def HashMap.end_ (s : HashMap K V) : Iterator :=
  Iterator.construct s.table (s.table.length - 1) (s.table.length - 1)
    (chainAt s.table (s.table.length - 1)).length

/-- The traversal loop of a caller,
`for (it = begin(); it != end(); ++it) visit(*it);`, continued from `it` for at
most `fuel` iterations: the visited entries in order, or `none` when the loop
has not reached `end()` within `fuel` increments or dereferences an iterator
that points at no entry. -/
def HashMap.traverse_from (s : HashMap K V) : Nat → Iterator → Option (List (K × V))
  | 0, it => if Iterator.eq it s.end_ then some [] else none
  | fuel + 1, it =>
    if Iterator.eq it s.end_ then some []
    else
      match Iterator.deref s.table it with
      | none => none
      | some p => (HashMap.traverse_from s fuel (Iterator.incr s.table it)).map (fun l => p :: l)

/-- The full traversal from `begin()`. -/
def HashMap.traverse (s : HashMap K V) (fuel : Nat) : Option (List (K × V)) :=
  s.traverse_from fuel s.begin

variable [DecidableEq K]

/-- The range-for loop of `find_pos`: count the entries before the first one
whose key equals `key`. -/
def find_pos_loop (key : K) : List (K × V) → Nat
  | [] => 0
  | p :: rest => if p.1 = key then 0 else find_pos_loop key rest + 1

/-- The private method `find_pos`. -/
def HashMap.find_pos (H : K → Nat) (s : HashMap K V) (key : K) : Nat :=
  find_pos_loop key (chainAt s.table (H key % s.table.length))

/-- The second loop of `fit_load`: reinsert every collected entry. -/
def rehash (H : K → Nat) (values : List (K × V)) (nsz : Nat) : List (List (K × V)) :=
  values.foldl (fun table p => push_back_at table (H p.1 % table.length) p)
    (List.replicate nsz [])

/-- The private method `fit_load`; the Boolean is its return value. -/
def HashMap.fit_load (H : K → Nat) (s : HashMap K V) : HashMap K V × Bool :=
  if mulSize s.number s.maxload ≤ s.table.length ∧
      mulSize s.number s.minload ≥ s.table.length then
    (s, false)
  else
    let values := s.table.flatten
    let nsz :=
      if mulSize s.number s.maxload > s.table.length then
        multiplicator * s.table.length
      else
        (s.table.length + multiplicator - 1) / multiplicator
    ({ s with table := rehash H values nsz }, true)

/-- The method `insert`. -/
def HashMap.insert (H : K → Nat) (s : HashMap K V) (p : K × V) : HashMap K V :=
  let id := H p.1 % s.table.length
  if s.find_pos H p.1 = (chainAt s.table id).length then
    (HashMap.fit_load H
      { s with table := push_back_at s.table id p, number := s.number + 1 }).1
  else s

/-- The first loop of `erase`, run `n` times: move the last entry of the chain
to the end of `s`. -/
def erase_loop : Nat → List (K × V) → List (K × V) → List (K × V) × List (K × V)
  | 0, chain, s => (chain, s)
  | n + 1, chain, s =>
    match chain.getLast? with
    | some x => erase_loop n chain.dropLast (s ++ [x])
    | none => (chain, s)

/-- The chain that `erase` leaves in place of `chain` when the key sits at
index `pos`: the loop, one more `pop_back`, then `push_back` of every saved
entry. -/
def erase_chain (chain : List (K × V)) (pos : Nat) : List (K × V) :=
  let r := erase_loop (chain.length - 1 - pos) chain []
  r.1.dropLast ++ r.2

/-- The method `erase`.  The statement `--number` is reached only after an entry
was found, so it is never applied to 0 when `number` counts the entries. -/
def HashMap.erase (H : K → Nat) (s : HashMap K V) (key : K) : HashMap K V :=
  let id := H key % s.table.length
  let pos := s.find_pos H key
  if pos ≠ (chainAt s.table id).length then
    (HashMap.fit_load H
      { s with table := s.table.set id (erase_chain (chainAt s.table id) pos),
               number := s.number - 1 }).1
  else s

/-- The method `find`. -/
def HashMap.find (H : K → Nat) (s : HashMap K V) (key : K) : Iterator :=
  let id := H key % s.table.length
  let pos := s.find_pos H key
  if pos ≠ (chainAt s.table id).length then
    Iterator.construct s.table id (s.table.length - 1) pos
  else s.end_

/-- The method `at`. -/
def HashMap.at (H : K → Nat) (s : HashMap K V) (key : K) : Except Exception V :=
  let it := s.find H key
  if Iterator.eq it s.end_ then .error .out_of_range
  else
    match Iterator.deref s.table it with
    | some p => .ok p.2
    | none => .error .invalid_dereference

/-- The method `clear`. -/
def HashMap.clear (s : HashMap K V) : HashMap K V :=
  { s with table := [[]], number := 0 }

/-- The method `operator[]`.  The returned reference is the pair (bucket index,
index in the chain) of the entry whose `second` it refers to; `dflt` is
`ValueType()`. -/
def HashMap.index (H : K → Nat) (dflt : V) (s : HashMap K V) (key : K) :
    HashMap K V × (Nat × Nat) :=
  let id := H key % s.table.length
  let pos := s.find_pos H key
  if pos = (chainAt s.table id).length then
    let r := HashMap.fit_load H
      { s with table := push_back_at s.table id (key, dflt), number := s.number + 1 }
    if r.2 then
      let it := r.1.find H key
      (r.1, (it.id, it.pos))
    else
      (r.1, (id, (chainAt r.1.table id).length - 1))
  else (s, (id, pos))

/-- An assignment through a reference returned by `operator[]`: the value of the
entry at index `slot.2` of chain `slot.1` becomes `v`. -/
def HashMap.write (s : HashMap K V) (slot : Nat × Nat) (v : V) : HashMap K V :=
  { s with table :=
      s.table.modify (fun chain => chain.modify (fun p => (p.1, v)) slot.2) slot.1 }

/-- The constructor `HashMap(std::initializer_list<value_type> l, const Hash&)`:
`table.resize(_maxload * l.size())` with the initial `_maxload = 1`, then one
`push_back` and `++number` per element. -/
def HashMap.of_initializer_list (H : K → Nat) (l : List (K × V)) : HashMap K V :=
  l.foldl
    (fun s p =>
      { s with table := push_back_at s.table (H p.1 % s.table.length) p,
               number := s.number + 1 })
    { table := List.replicate (mulSize 1 l.length) [], number := 0, maxload := 1, minload := 8 }

/-- The constructor `HashMap(Iter first_element, Iter last_element, const Hash&)`
over the sequence `l`: a first pass counts the elements into `number`,
`table.resize(_maxload * number)`, then one `push_back` per element. -/
def HashMap.of_range (H : K → Nat) (l : List (K × V)) : HashMap K V :=
  let number := l.foldl (fun n _ => n + 1) 0
  { table := l.foldl (fun table p => push_back_at table (H p.1 % table.length) p)
      (List.replicate (mulSize 1 number) []),
    number := number, maxload := 1, minload := 8 }

/-- A mutating call made by a client: `insert((k, v))`, `erase(k)`, `m[k]`
(optionally followed by an assignment through the returned reference), `clear()`. -/
inductive Op (K : Type u) (V : Type v) where
  | insert (k : K) (v : V)
  | erase (k : K)
  | index (k : K) (w : Option V)
  | clear

/-- The state after one call. -/
def HashMap.apply (H : K → Nat) (dflt : V) (s : HashMap K V) : Op K V → HashMap K V
  | .insert k v => s.insert H (k, v)
  | .erase k => s.erase H k
  | .index k none => (s.index H dflt k).1
  | .index k (some v) => (s.index H dflt k).1.write (s.index H dflt k).2 v
  | .clear => s.clear

/-- The state after a sequence of calls on the default-constructed map. -/
def HashMap.run (H : K → Nat) (dflt : V) (ops : List (Op K V)) : HashMap K V :=
  ops.foldl (HashMap.apply H dflt) HashMap.new

/-- The method `get_maxload`. -/
def HashMap.get_maxload (s : HashMap K V) : Nat := s.maxload

/-- The method `get_minload`. -/
def HashMap.get_minload (s : HashMap K V) : Nat := s.minload

/-- The call `table.resize(n)` on a vector of chains: keep the first `n` chains,
or append empty chains up to `n`. -/
def resize (table : List (List (K × V))) (n : Nat) : List (List (K × V)) :=
  table.take n ++ List.replicate (n - table.length) []

/-- The loop shared by the copy constructor and `operator=`: for every `id` below
`other.table.size()`, `table[id].clear()` followed by `push_back` of every entry
of `other.table[id]`. -/
def copy_chains (other table : List (List (K × V))) : List (List (K × V)) :=
  (List.range other.length).foldl
    (fun t id => t.set id ((chainAt other id).foldl (fun chain x => chain ++ [x]) []))
    table

/-- The copy constructor `HashMap(const HashMap& other)`: `number` is copied, the
fresh `table` is resized and filled chain by chain; `_maxload` and `_minload`
are not mentioned and take their default member initializers. -/
def HashMap.copy (other : HashMap K V) : HashMap K V :=
  { table := copy_chains other.table (resize [] other.table.length),
    number := other.number, maxload := 1, minload := 8 }

/-- The copy assignment `operator=(const HashMap& tother)` on the target `self`:
a local copy `other` of `tother` is made, then `number` is assigned and the
target's own `table` is resized and refilled; `_maxload` and `_minload` of the
target are not assigned. -/
def HashMap.assign (self tother : HashMap K V) : HashMap K V :=
  let other := tother.copy
  { self with
    number := other.number,
    table := copy_chains other.table (resize self.table other.table.length) }

/-- The maps a client can build with hasher `H`: the default-constructed map and
the results of `insert`, `erase`, `operator[]` (with or without an assignment
through the returned reference), `clear`, `set_maxload` and `set_minload`. -/
inductive Reachable (H : K → Nat) (dflt : V) : HashMap K V → Prop where
  | new : Reachable H dflt HashMap.new
  | insert (s : HashMap K V) (p : K × V) : Reachable H dflt s → Reachable H dflt (s.insert H p)
  | erase (s : HashMap K V) (k : K) : Reachable H dflt s → Reachable H dflt (s.erase H k)
  | index (s : HashMap K V) (k : K) :
      Reachable H dflt s → Reachable H dflt (s.index H dflt k).1
  | index_write (s : HashMap K V) (k : K) (v : V) :
      Reachable H dflt s →
        Reachable H dflt ((s.index H dflt k).1.write (s.index H dflt k).2 v)
  | clear (s : HashMap K V) : Reachable H dflt s → Reachable H dflt s.clear
  | set_maxload (s : HashMap K V) (load : Nat) :
      Reachable H dflt s → Reachable H dflt (s.set_maxload load)
  | set_minload (s : HashMap K V) (load : Nat) :
      Reachable H dflt s → Reachable H dflt (s.set_minload load)

end Model

/-! ## Invariants and observations -/

section Observations

variable {K : Type u} {V : Type v} [DecidableEq K]

/-- The first entry of a chain whose key is `key`. -/
def lookup (key : K) (chain : List (K × V)) : Option (K × V) :=
  chain.find? (fun p => decide (p.1 = key))

/-- The entry that a search for `key` meets: the first match in the chain of
index `H key % table.length`. -/
def HashMap.entry (H : K → Nat) (s : HashMap K V) (key : K) : Option (K × V) :=
  lookup key (chainAt s.table (H key % s.table.length))

/-- A well-formed iterator over `table`: `last` is the last bucket, `id` has not
passed it, `pos` is inside chain `id` or at its end, and the position is
normalized (it is at an entry, or `id` is the last bucket). -/
def Iterator.valid (table : List (List (K × V))) (it : Iterator) : Prop :=
  it.last + 1 = table.length ∧ it.id ≤ it.last ∧
    it.pos ≤ (chainAt table it.id).length ∧
    (it.pos < (chainAt table it.id).length ∨ it.id = it.last)

/-- The entries from the position of `it` onwards, in bucket order, then chain
order. -/
def Iterator.rest (table : List (List (K × V))) (it : Iterator) : List (K × V) :=
  (chainAt table it.id).drop it.pos ++ (table.drop (it.id + 1)).flatten

/-- Invariant I1: every entry lies in the chain of index `hash(key) mod bucket_count`. -/
def I1 (H : K → Nat) (s : HashMap K V) : Prop :=
  ∀ i < s.table.length, ∀ p ∈ chainAt s.table i, H p.1 % s.table.length = i

/-- Invariant I2: `number` is the sum of the chain lengths. -/
def I2 (s : HashMap K V) : Prop :=
  s.number = (s.table.map List.length).sum

/-- Invariant I3: there is at least one bucket. -/
def I3 (s : HashMap K V) : Prop :=
  1 ≤ s.table.length

/-- Invariant I4: no chain holds two entries with equal keys. -/
def I4 (s : HashMap K V) : Prop :=
  ∀ chain ∈ s.table, (chain.map Prod.fst).Nodup

/-- Some entry of the map has key `key`. -/
def HashMap.hasKey (s : HashMap K V) (key : K) : Prop :=
  ∃ chain ∈ s.table, ∃ p ∈ chain, p.1 = key

instance (H : K → Nat) (s : HashMap K V) : Decidable (I1 H s) :=
  inferInstanceAs (Decidable
    (∀ i < s.table.length, ∀ p ∈ chainAt s.table i, H p.1 % s.table.length = i))

instance (s : HashMap K V) : Decidable (I2 s) :=
  inferInstanceAs (Decidable (s.number = (s.table.map List.length).sum))

instance (s : HashMap K V) : Decidable (I3 s) :=
  inferInstanceAs (Decidable (1 ≤ s.table.length))

instance (s : HashMap K V) : Decidable (I4 s) :=
  inferInstanceAs (Decidable (∀ chain ∈ s.table, (chain.map Prod.fst).Nodup))

instance (s : HashMap K V) (key : K) : Decidable (s.hasKey key) :=
  inferInstanceAs (Decidable (∃ chain ∈ s.table, ∃ p ∈ chain, p.1 = key))

/-- The call inserts key `k` (`insert` or `operator[]` on `k`). -/
def Op.inserts (k : K) : Op K V → Prop
  | .insert k' _ => k' = k
  | .index k' _ => k' = k
  | _ => False

/-- The call erases key `k` (`erase` on `k`, or `clear`). -/
def Op.removes (k : K) : Op K V → Prop
  | .erase k' => k' = k
  | .clear => True
  | _ => False

/-- The effect of one call on the list of live keys. -/
def liveStep (live : List K) : Op K V → List K
  | .insert k _ => List.insert k live
  | .erase k => live.erase k
  | .index k _ => List.insert k live
  | .clear => []

/-- Specification side of the size claim: the distinct keys inserted (by `insert`
or `operator[]`) and not subsequently erased (by `erase` or `clear`). -/
def liveKeys (ops : List (Op K V)) : List K :=
  ops.foldl liveStep []

/-- Specification side of one call: the association list of the live
(key, value) pairs, where an insertion of a key already present is a no-op and
an assignment through `operator[]` replaces the value. -/
def specStep (dflt : V) (m : List (K × V)) : Op K V → List (K × V)
  | .insert k v => if (lookup k m).isSome then m else m ++ [(k, v)]
  | .erase k => m.filter (fun p => decide (p.1 ≠ k))
  | .index k none => if (lookup k m).isSome then m else m ++ [(k, dflt)]
  | .index k (some v) =>
    (if (lookup k m).isSome then m else m ++ [(k, dflt)]).map
      (fun p => if p.1 = k then (p.1, v) else p)
  | .clear => []

/-- Specification side of a sequence of calls on the empty map. -/
def specRun (dflt : V) (ops : List (Op K V)) : List (K × V) :=
  ops.foldl (specStep dflt) []

end Observations

/-! ## Sample maps over natural-number keys, hashed by the identity -/

/-- Two buckets, keys 2 and 1, default thresholds. -/
def sampleMap : HashMap Nat Nat :=
  { table := [[(2, 20)], [(1, 10)]], number := 2, maxload := 1, minload := 8 }

/-- The map built by `insert` of the keys 4, 8, 12 into the empty map. -/
def orderMap : HashMap Nat Nat :=
  ((HashMap.new.insert id (4, 1)).insert id (8, 2)).insert id (12, 3)

/-- The calls `insert` of the keys 1, 2, 3 followed by `erase` of the keys 1, 2, 3. -/
def drainOps : List (Op Nat Nat) :=
  [.insert 1 10, .insert 2 20, .insert 3 30, .erase 1, .erase 2, .erase 3]

/-- The five insertions of the specification's scenario. -/
def scenarioInserts : List (Op Nat String) :=
  [.insert 1 "a", .insert 2 "b", .insert 3 "c", .insert 4 "d", .insert 5 "e"]

/-- The map of the scenario after the five insertions, for the hasher `H`. -/
def scenarioMap (H : Nat → Nat) : HashMap Nat String :=
  ((((HashMap.new.insert H (1, "a")).insert H (2, "b")).insert H (3, "c")).insert H
    (4, "d")).insert H (5, "e")

/-- A map with `_maxload = 2 ^ 63` holding two entries in two buckets: the state
in which `fit_load` runs during the second of the calls `set_maxload(2 ^ 63)`,
`insert((1, 1))`, `insert((2, 2))` on the empty map. -/
def overflowMap : HashMap Nat Nat :=
  { table := [[(2, 2)], [(1, 1)]], number := 2, maxload := 2 ^ 63, minload := 8 }

/-! # Properties -/

section Lemmas
variable {K : Type u} {V : Type v}

theorem Iterator.skip_stop (table : List (List (K × V))) (last fuel id pos : Nat)
    (h : ¬ (pos = (chainAt table id).length ∧ id ≠ last)) :
    Iterator.skip table last fuel id pos = ⟨id, last, pos⟩ := by
  cases fuel with
  | zero => rfl
  | succ n => simp only [Iterator.skip, if_neg h]

theorem HashMap.end_eq (s : HashMap K V) :
    s.end_ = ⟨s.table.length - 1, s.table.length - 1,
      (chainAt s.table (s.table.length - 1)).length⟩ := by
  unfold HashMap.end_ Iterator.construct
  exact Iterator.skip_stop _ _ _ _ _ (fun h => h.2 rfl)

variable [DecidableEq K]

theorem find_pos_loop_le (key : K) (chain : List (K × V)) :
    find_pos_loop key chain ≤ chain.length := by
  induction chain with
  | nil => simp [find_pos_loop]
  | cons p rest ih =>
    simp only [find_pos_loop]
    split
    · simp
    · simpa using ih

theorem find_pos_loop_eq_length (key : K) (chain : List (K × V)) :
    find_pos_loop key chain = chain.length ↔ ∀ p ∈ chain, p.1 ≠ key := by
  induction chain with
  | nil => simp [find_pos_loop]
  | cons p rest ih =>
    simp only [find_pos_loop]
    by_cases h : p.1 = key
    · simp [h]
    · simp [h, ih]

theorem get?_find_pos_loop (key : K) (chain : List (K × V)) :
    chain.get? (find_pos_loop key chain) = lookup key chain := by
  induction chain with
  | nil => simp [find_pos_loop, lookup]
  | cons p rest ih =>
    simp only [find_pos_loop, lookup]
    by_cases h : p.1 = key
    · simp [h]
    · simpa [h, lookup] using ih

theorem lookup_eq_none (key : K) (chain : List (K × V)) :
    lookup key chain = none ↔ ∀ p ∈ chain, p.1 ≠ key := by
  simp [lookup]

theorem lookup_key (key : K) (chain : List (K × V)) (p : K × V)
    (h : lookup key chain = some p) : p.1 = key ∧ p ∈ chain := by
  unfold lookup at h
  exact ⟨by simpa using List.find?_some h, List.mem_of_find?_eq_some h⟩

theorem HashMap.find_pos_eq_length (H : K → Nat) (s : HashMap K V) (key : K) :
    s.find_pos H key = (chainAt s.table (H key % s.table.length)).length ↔
      s.entry H key = none := by
  unfold HashMap.find_pos HashMap.entry
  rw [find_pos_loop_eq_length, lookup_eq_none]

theorem HashMap.find_eq_end (H : K → Nat) (s : HashMap K V) (key : K) :
    Iterator.eq (s.find H key) s.end_ = true ↔ s.entry H key = none := by
  rw [← HashMap.find_pos_eq_length]
  unfold HashMap.find
  by_cases h : s.find_pos H key = (chainAt s.table (H key % s.table.length)).length
  · simp [h, Iterator.eq]
  · simp only [ne_eq, h, not_false_eq_true, if_true, iff_false]
    unfold Iterator.construct
    rw [Iterator.skip_stop _ _ _ _ _ (fun hh => h hh.1), HashMap.end_eq]
    simp only [Iterator.eq, decide_eq_true_eq, not_and]
    intro hid hpos
    apply h
    rw [hid]; exact hpos

theorem HashMap.deref_find (H : K → Nat) (s : HashMap K V) (key : K)
    (h : s.entry H key ≠ none) :
    Iterator.deref s.table (s.find H key) = s.entry H key := by
  have h1 : ¬ s.find_pos H key = (chainAt s.table (H key % s.table.length)).length := by
    rw [HashMap.find_pos_eq_length]; exact h
  unfold HashMap.find
  simp only [ne_eq, h1, not_false_eq_true, if_true]
  unfold Iterator.construct
  rw [Iterator.skip_stop _ _ _ _ _ (fun hh => h1 hh.1)]
  simp only [Iterator.deref]
  unfold HashMap.find_pos HashMap.entry
  exact get?_find_pos_loop _ _

theorem HashMap.at_eq (H : K → Nat) (s : HashMap K V) (key : K) :
    s.at H key =
      match s.entry H key with
      | some p => .ok p.2
      | none => .error .out_of_range := by
  unfold HashMap.at
  cases he : s.entry H key with
  | none =>
    have := (HashMap.find_eq_end H s key).2 he
    simp [this]
  | some p =>
    have hne : s.entry H key ≠ none := by simp [he]
    have h1 : Iterator.eq (s.find H key) s.end_ = false := by
      cases hb : Iterator.eq (s.find H key) s.end_ with
      | false => rfl
      | true => exact absurd ((HashMap.find_eq_end H s key).1 hb) hne
    simp [h1, HashMap.deref_find H s key hne, he]

end Lemmas

section TableLemmas
variable {K : Type u} {V : Type v}

theorem chainAt_set (t : List (List (K × V))) (id i : Nat) (c : List (K × V))
    (hid : id < t.length) :
    chainAt (t.set id c) i = if i = id then c else chainAt t i := by
  unfold chainAt
  by_cases h : i = id
  · subst h
    simp [List.getD_eq_getElem?_getD, hid]
  · simp [List.getD_eq_getElem?_getD, List.getElem?_set, h, Ne.symm h]

theorem chainAt_push_back_at (t : List (List (K × V))) (id i : Nat) (p : K × V)
    (hid : id < t.length) :
    chainAt (push_back_at t id p) i =
      if i = id then chainAt t id ++ [p] else chainAt t i := by
  unfold push_back_at
  exact chainAt_set t id i _ hid

theorem length_push_back_at (t : List (List (K × V))) (id : Nat) (p : K × V) :
    (push_back_at t id p).length = t.length := by
  simp [push_back_at]

theorem chainAt_replicate (n i : Nat) :
    chainAt (List.replicate n ([] : List (K × V))) i = [] := by
  unfold chainAt
  by_cases h : i < n
  · simp [List.getD_eq_getElem?_getD, h]
  · simp [List.getD_eq_getElem?_getD, h]

theorem mem_chainAt (t : List (List (K × V))) (i : Nat) (p : K × V)
    (h : p ∈ chainAt t i) : i < t.length ∧ chainAt t i ∈ t := by
  unfold chainAt at *
  by_cases hi : i < t.length
  · refine ⟨hi, ?_⟩
    rw [List.getD_eq_getElem?_getD, List.getElem?_eq_getElem hi]
    simp
  · rw [List.getD_eq_getElem?_getD, List.getElem?_eq_none (by omega)] at h
    simp at h

theorem exists_chainAt (t : List (List (K × V))) (c : List (K × V)) (h : c ∈ t) :
    ∃ i, i < t.length ∧ chainAt t i = c := by
  obtain ⟨i, hi, rfl⟩ := List.getElem_of_mem h
  refine ⟨i, hi, ?_⟩
  simp [chainAt, List.getD_eq_getElem?_getD, hi]

variable [DecidableEq K]

theorem foldl_push_length (H : K → Nat) (vals : List (K × V)) (t : List (List (K × V))) :
    (vals.foldl (fun table p => push_back_at table (H p.1 % table.length) p) t).length
      = t.length := by
  induction vals generalizing t with
  | nil => rfl
  | cons p rest ih =>
    simp only [List.foldl_cons]
    rw [ih, length_push_back_at]

theorem foldl_push_chain (H : K → Nat) (vals : List (K × V)) (t : List (List (K × V)))
    (ht : 0 < t.length) (i : Nat) :
    chainAt (vals.foldl (fun table p => push_back_at table (H p.1 % table.length) p) t) i
      = chainAt t i ++ vals.filter (fun p => decide (H p.1 % t.length = i)) := by
  induction vals generalizing t with
  | nil => simp
  | cons p rest ih =>
    simp only [List.foldl_cons]
    rw [ih _ (by rw [length_push_back_at]; exact ht), length_push_back_at,
      chainAt_push_back_at _ _ _ _ (Nat.mod_lt _ ht)]
    by_cases h : i = H p.1 % t.length
    · subst h
      simp [List.filter_cons]
    · simp [List.filter_cons, h, Ne.symm h]

theorem rehash_length (H : K → Nat) (vals : List (K × V)) (n : Nat) :
    (rehash H vals n).length = n := by
  unfold rehash
  rw [foldl_push_length]
  simp

theorem rehash_chain (H : K → Nat) (vals : List (K × V)) (n : Nat) (hn : 0 < n) (i : Nat) :
    chainAt (rehash H vals n) i = vals.filter (fun p => decide (H p.1 % n = i)) := by
  unfold rehash
  rw [foldl_push_chain H vals _ (by simpa using hn), chainAt_replicate]
  simp

theorem lookup_append (key : K) (a b : List (K × V)) :
    lookup key (a ++ b) = (lookup key a).or (lookup key b) := by
  simp [lookup, List.find?_append]

theorem lookup_filter_hash (H : K → Nat) (n : Nat) (key : K) (vals : List (K × V)) :
    lookup key (vals.filter (fun p => decide (H p.1 % n = H key % n))) = lookup key vals := by
  induction vals with
  | nil => rfl
  | cons p rest ih =>
    by_cases h : p.1 = key
    · simp [lookup, List.filter_cons, h]
    · by_cases h2 : H p.1 % n = H key % n
      · simpa [lookup, List.filter_cons, h, h2] using ih
      · simpa [lookup, List.filter_cons, h, h2] using ih

theorem lookup_flatten_of_chain (key : K) (t : List (List (K × V))) (j : Nat)
    (h : ∀ i, i ≠ j → ∀ p ∈ chainAt t i, p.1 ≠ key) :
    lookup key t.flatten = lookup key (chainAt t j) := by
  induction t generalizing j with
  | nil => simp [chainAt]
  | cons c rest ih =>
    rw [List.flatten_cons, lookup_append]
    cases j with
    | zero =>
      have hr : lookup key rest.flatten = none := by
        rw [lookup_eq_none]
        intro p hp
        obtain ⟨c', hc', hpc⟩ := List.mem_flatten.1 hp
        obtain ⟨i, hi, rfl⟩ := exists_chainAt rest c' hc'
        exact h (i + 1) (by omega) p (by simpa [chainAt] using hpc)
      rw [hr]
      simp [chainAt]
    | succ j =>
      have hc : lookup key c = none := by
        rw [lookup_eq_none]
        intro p hp
        exact h 0 (by omega) p (by simpa [chainAt] using hp)
      rw [hc]
      simp only [Option.or, chainAt, List.getD_cons_succ]
      apply ih
      intro i hi p hp
      exact h (i + 1) (by omega) p (by simpa [chainAt] using hp)

theorem lookup_flatten (H : K → Nat) (s : HashMap K V) (h1 : I1 H s) (key : K) :
    lookup key s.table.flatten = s.entry H key := by
  unfold HashMap.entry
  apply lookup_flatten_of_chain
  intro i hi p hp hk
  have := h1 i (mem_chainAt _ _ _ hp).1 p hp
  rw [hk] at this
  exact hi this.symm

end TableLemmas

section FitLoad
variable {K : Type u} {V : Type v} [DecidableEq K]

theorem fit_load_cases (H : K → Nat) (s : HashMap K V) :
    ((s.fit_load H).2 = false ∧ (s.fit_load H).1 = s) ∨
    ((s.fit_load H).2 = true ∧ ∃ n, (s.table.length ≤ 2 * n) ∧
      (s.fit_load H).1 = { s with table := rehash H s.table.flatten n }) := by
  unfold HashMap.fit_load
  split
  · left; exact ⟨rfl, rfl⟩
  · right
    refine ⟨rfl, _, ?_, rfl⟩
    simp only [multiplicator]
    split <;> omega

theorem fit_load_number (H : K → Nat) (s : HashMap K V) :
    (s.fit_load H).1.number = s.number := by
  rcases fit_load_cases H s with ⟨_, h⟩ | ⟨_, n, _, h⟩ <;> rw [h]

theorem fit_load_maxload (H : K → Nat) (s : HashMap K V) :
    (s.fit_load H).1.maxload = s.maxload := by
  rcases fit_load_cases H s with ⟨_, h⟩ | ⟨_, n, _, h⟩ <;> rw [h]

theorem fit_load_minload (H : K → Nat) (s : HashMap K V) :
    (s.fit_load H).1.minload = s.minload := by
  rcases fit_load_cases H s with ⟨_, h⟩ | ⟨_, n, _, h⟩ <;> rw [h]

theorem fit_load_I3 (H : K → Nat) (s : HashMap K V) (h3 : I3 s) :
    I3 (s.fit_load H).1 := by
  unfold I3 at *
  rcases fit_load_cases H s with ⟨_, h⟩ | ⟨_, n, hn, h⟩ <;> rw [h]
  · exact h3
  · simp only [rehash_length]; omega

theorem rehash_I1 (H : K → Nat) (s : HashMap K V) (vals : List (K × V)) (n : Nat)
    (hn : 0 < n) : I1 H { s with table := rehash H vals n } := by
  intro i hi p hp
  simp only [rehash_length] at hi ⊢
  simp only [rehash_chain H vals n hn] at hp
  simpa using (List.mem_filter.1 hp).2

theorem fit_load_I1 (H : K → Nat) (s : HashMap K V) (h1 : I1 H s) (h3 : I3 s) :
    I1 H (s.fit_load H).1 := by
  unfold I3 at h3
  rcases fit_load_cases H s with ⟨_, h⟩ | ⟨_, n, hn, h⟩ <;> rw [h]
  · exact h1
  · exact rehash_I1 H s _ n (by omega)

theorem rehash_entry (H : K → Nat) (s : HashMap K V) (h1 : I1 H s) (n : Nat)
    (hn : 0 < n) (key : K) :
    HashMap.entry H { s with table := rehash H s.table.flatten n } key = s.entry H key := by
  rw [← lookup_flatten H s h1 key]
  unfold HashMap.entry
  simp only [rehash_length]
  rw [rehash_chain H _ n hn, lookup_filter_hash]

theorem fit_load_entry (H : K → Nat) (s : HashMap K V) (h1 : I1 H s) (h3 : I3 s) (key : K) :
    (s.fit_load H).1.entry H key = s.entry H key := by
  unfold I3 at h3
  rcases fit_load_cases H s with ⟨_, h⟩ | ⟨_, n, hn, h⟩ <;> rw [h]
  exact rehash_entry H s h1 n (by omega) key

theorem push_I3 (s : HashMap K V) (id : Nat) (p : K × V) (h3 : I3 s) :
    I3 { s with table := push_back_at s.table id p, number := s.number + 1 } := by
  unfold I3 at *
  simpa [length_push_back_at] using h3

theorem push_I1 (H : K → Nat) (s : HashMap K V) (p : K × V) (h1 : I1 H s) (h3 : I3 s) :
    I1 H { s with table := push_back_at s.table (H p.1 % s.table.length) p,
                  number := s.number + 1 } := by
  unfold I3 at h3
  intro i hi q hq
  simp only [length_push_back_at] at hi ⊢
  simp only [chainAt_push_back_at _ _ _ _ (Nat.mod_lt (H p.1) h3)] at hq
  split at hq
  · rename_i hh
    rcases List.mem_append.1 hq with hq | hq
    · rw [← hh] at hq
      exact h1 i hi q hq
    · simp only [List.mem_singleton] at hq
      rw [hq, hh]
  · exact h1 i hi q hq

theorem push_entry_other (H : K → Nat) (s : HashMap K V) (p : K × V) (h3 : I3 s)
    (key : K) (hk : key ≠ p.1) :
    HashMap.entry H { s with table := push_back_at s.table (H p.1 % s.table.length) p,
                             number := s.number + 1 } key = s.entry H key := by
  unfold I3 at h3
  unfold HashMap.entry
  simp only [length_push_back_at, chainAt_push_back_at _ _ _ _ (Nat.mod_lt (H p.1) h3)]
  split
  · rename_i hh
    rw [lookup_append, ← hh]
    have : lookup key [p] = none := by
      rw [lookup_eq_none]; intro q hq
      simp only [List.mem_singleton] at hq
      rw [hq]; exact fun h => hk h.symm
    rw [this]
    cases lookup key (chainAt s.table (H key % s.table.length)) <;> rfl
  · rfl

theorem push_entry_same (H : K → Nat) (s : HashMap K V) (p : K × V) (h3 : I3 s)
    (habs : s.entry H p.1 = none) :
    HashMap.entry H { s with table := push_back_at s.table (H p.1 % s.table.length) p,
                             number := s.number + 1 } p.1 = some p := by
  unfold I3 at h3
  unfold HashMap.entry at *
  simp only [length_push_back_at, chainAt_push_back_at _ _ _ _ (Nat.mod_lt (H p.1) h3),
    if_true, lookup_append, habs]
  simp [lookup]

theorem entry_eq_none_of_not_hasKey (H : K → Nat) (s : HashMap K V) (key : K)
    (h : ¬ s.hasKey key) : s.entry H key = none := by
  unfold HashMap.entry
  rw [lookup_eq_none]
  intro p hp hk
  exact h ⟨_, (mem_chainAt _ _ _ hp).2, p, hp, hk⟩

theorem hasKey_iff_entry (H : K → Nat) (s : HashMap K V) (h1 : I1 H s) (key : K) :
    s.hasKey key ↔ s.entry H key ≠ none := by
  constructor
  · rintro ⟨c, hc, p, hp, hk⟩
    obtain ⟨i, hi, rfl⟩ := exists_chainAt _ _ hc
    have := h1 i hi p hp
    unfold HashMap.entry
    rw [Ne, lookup_eq_none]
    intro hall
    rw [hk] at this
    rw [this] at hall
    exact hall p hp hk
  · intro h
    by_contra hn
    exact h (entry_eq_none_of_not_hasKey H s key hn)

theorem insert_absent (H : K → Nat) (s : HashMap K V) (p : K × V)
    (habs : s.entry H p.1 = none) :
    s.insert H p = (HashMap.fit_load H
      { s with table := push_back_at s.table (H p.1 % s.table.length) p,
               number := s.number + 1 }).1 := by
  unfold HashMap.insert
  simp only [(HashMap.find_pos_eq_length H s p.1).2 habs, if_true]

theorem insert_present (H : K → Nat) (s : HashMap K V) (p : K × V)
    (hpre : s.entry H p.1 ≠ none) : s.insert H p = s := by
  unfold HashMap.insert
  have : ¬ s.find_pos H p.1 = (chainAt s.table (H p.1 % s.table.length)).length := by
    rw [HashMap.find_pos_eq_length]; exact hpre
  simp only [this, if_false]

theorem insert_entry_same (H : K → Nat) (s : HashMap K V) (p : K × V)
    (h1 : I1 H s) (h3 : I3 s) (habs : s.entry H p.1 = none) :
    (s.insert H p).entry H p.1 = some p := by
  rw [insert_absent H s p habs, fit_load_entry H _ (push_I1 H s p h1 h3) (push_I3 s _ p h3)]
  exact push_entry_same H s p h3 habs

theorem insert_entry_other (H : K → Nat) (s : HashMap K V) (p : K × V)
    (h1 : I1 H s) (h3 : I3 s) (key : K) (hk : key ≠ p.1) :
    (s.insert H p).entry H key = s.entry H key := by
  by_cases habs : s.entry H p.1 = none
  · rw [insert_absent H s p habs,
      fit_load_entry H _ (push_I1 H s p h1 h3) (push_I3 s _ p h3)]
    exact push_entry_other H s p h3 key hk
  · rw [insert_present H s p habs]

theorem find_eq_end_congr (H : K → Nat) (s s' : HashMap K V) (key : K)
    (h : s'.entry H key = s.entry H key) :
    Iterator.eq (s'.find H key) s'.end_ = Iterator.eq (s.find H key) s.end_ := by
  have a := HashMap.find_eq_end H s key
  have b := HashMap.find_eq_end H s' key
  rw [h] at b
  cases h1 : Iterator.eq (s'.find H key) s'.end_ <;>
    cases h2 : Iterator.eq (s.find H key) s.end_ <;> simp_all

end FitLoad

section EraseLemmas
variable {K : Type u} {V : Type v}

theorem erase_loop_append (a b s : List (K × V)) :
    erase_loop b.length (a ++ b) s = (a, s ++ b.reverse) := by
  induction b using List.reverseRecOn generalizing s with
  | nil => simp [erase_loop]
  | append_singleton b x ih =>
    have h1 : (b ++ [x]).length = b.length + 1 := by simp
    have h2 : a ++ (b ++ [x]) = (a ++ b) ++ [x] := by simp
    rw [h1, h2]
    simp only [erase_loop, List.getLast?_concat, List.dropLast_concat]
    rw [ih]
    simp

theorem erase_chain_eq (chain : List (K × V)) (pos : Nat) (h : pos < chain.length) :
    erase_chain chain pos = chain.take pos ++ (chain.drop (pos + 1)).reverse := by
  unfold erase_chain
  have hlen : chain.length - 1 - pos = (chain.drop (pos + 1)).length := by
    simp; omega
  have key := erase_loop_append (chain.take (pos + 1)) (chain.drop (pos + 1)) []
  rw [List.take_append_drop, ← hlen] at key
  rw [key]
  have htake : chain.take (pos + 1) = chain.take pos ++ [chain[pos]] := by
    rw [List.take_succ, List.getElem?_eq_getElem h]
    rfl
  simp only [htake, List.dropLast_concat, List.nil_append]

theorem erase_chain_perm (chain : List (K × V)) (pos : Nat) (h : pos < chain.length) :
    chain.Perm (chain.get ⟨pos, h⟩ :: erase_chain chain pos) := by
  rw [erase_chain_eq chain pos h]
  have h1 : chain = chain.take pos ++ (chain.get ⟨pos, h⟩ :: chain.drop (pos + 1)) := by
    rw [List.get_eq_getElem, List.getElem_cons_drop, List.take_append_drop]
  conv_lhs => rw [h1]
  refine List.perm_middle.trans (List.Perm.cons _ ?_)
  exact List.Perm.append_left _ (List.reverse_perm _).symm

theorem flatten_set_perm (t : List (List (K × V))) (id : Nat) (c : List (K × V))
    (hid : id < t.length) :
    (t.set id c).flatten.Perm (c ++ (t.eraseIdx id).flatten) := by
  induction t generalizing id with
  | nil => simp at hid
  | cons d r ih =>
    cases id with
    | zero => simp
    | succ id =>
      simp only [List.set_cons_succ, List.flatten_cons, List.eraseIdx_cons_succ]
      have := ih id (by simpa using hid)
      exact (List.Perm.append_left d this).trans (List.perm_append_comm_assoc _ _ _)

theorem flatten_perm_chain (t : List (List (K × V))) (id : Nat) (hid : id < t.length) :
    t.flatten.Perm (chainAt t id ++ (t.eraseIdx id).flatten) := by
  have h := flatten_set_perm t id (chainAt t id) hid
  have hs : t.set id (chainAt t id) = t := by
    unfold chainAt
    rw [List.getD_eq_getElem?_getD, List.getElem?_eq_getElem hid]
    simp only [Option.getD_some]
    apply List.ext_getElem (by simp)
    intro n h1 h2
    rw [List.getElem_set]
    split
    · rename_i hh; subst hh; rfl
    · rfl
  rwa [hs] at h

theorem flatten_push_perm (t : List (List (K × V))) (id : Nat) (p : K × V)
    (hid : id < t.length) :
    (push_back_at t id p).flatten.Perm (p :: t.flatten) := by
  unfold push_back_at
  refine (flatten_set_perm t id _ hid).trans ?_
  refine List.Perm.trans ?_ (List.Perm.cons p (flatten_perm_chain t id hid).symm)
  rw [List.append_assoc]
  exact (List.perm_append_comm_assoc _ _ _).trans (by simp)

theorem flatten_erase_perm (t : List (List (K × V))) (id pos : Nat) (hid : id < t.length)
    (hpos : pos < (chainAt t id).length) :
    t.flatten.Perm ((chainAt t id).get ⟨pos, hpos⟩ ::
      (t.set id (erase_chain (chainAt t id) pos)).flatten) := by
  refine (flatten_perm_chain t id hid).trans ?_
  refine List.Perm.trans ?_ (List.Perm.cons _ (flatten_set_perm t id _ hid).symm)
  exact List.Perm.append_right _ (erase_chain_perm _ pos hpos)

theorem foldl_push_perm (H : K → Nat) (vals : List (K × V)) (t : List (List (K × V)))
    (ht : 0 < t.length) :
    (vals.foldl (fun table p => push_back_at table (H p.1 % table.length) p) t).flatten.Perm
      (t.flatten ++ vals) := by
  induction vals generalizing t with
  | nil => simp
  | cons p rest ih =>
    simp only [List.foldl_cons]
    refine (ih _ (by rw [length_push_back_at]; exact ht)).trans ?_
    refine (List.Perm.append_right _ (flatten_push_perm t _ p (Nat.mod_lt _ ht))).trans ?_
    simp only [List.cons_append]
    exact List.perm_middle.symm

theorem rehash_perm (H : K → Nat) (vals : List (K × V)) (n : Nat) (hn : 0 < n) :
    (rehash H vals n).flatten.Perm vals := by
  unfold rehash
  refine (foldl_push_perm H vals _ (by simpa using hn)).trans ?_
  have : (List.replicate n ([] : List (K × V))).flatten = [] := by
    induction n with
    | zero => rfl
    | succ m ih =>
      cases m with
      | zero => simp [List.replicate]
      | succ k => simp [List.replicate_succ, ih (by omega)]
  rw [this]
  simp

variable [DecidableEq K]

theorem fit_load_perm (H : K → Nat) (s : HashMap K V) (h3 : I3 s) :
    (s.fit_load H).1.table.flatten.Perm s.table.flatten := by
  unfold I3 at h3
  rcases fit_load_cases H s with ⟨_, h⟩ | ⟨_, n, hn, h⟩ <;> rw [h]
  exact rehash_perm H _ n (by omega)

theorem keys_nodup_of_I1_I4 (H : K → Nat) (s : HashMap K V) (h1 : I1 H s) (h4 : I4 s) :
    (s.table.flatten.map Prod.fst).Nodup := by
  rw [List.map_flatten, List.nodup_flatten]
  constructor
  · intro l hl
    obtain ⟨c, hc, rfl⟩ := List.mem_map.1 hl
    exact h4 c hc
  · rw [List.pairwise_map, List.pairwise_iff_getElem]
    intro i j hi hj hij k hki hkj
    obtain ⟨p, hp, rfl⟩ := List.mem_map.1 hki
    obtain ⟨q, hq, hqk⟩ := List.mem_map.1 hkj
    have ci : chainAt s.table i = s.table[i] := by
      simp [chainAt, List.getD_eq_getElem?_getD, hi]
    have cj : chainAt s.table j = s.table[j] := by
      simp [chainAt, List.getD_eq_getElem?_getD, hj]
    have e1 := h1 i hi p (by rw [ci]; exact hp)
    have e2 := h1 j hj q (by rw [cj]; exact hq)
    rw [hqk, e1] at e2
    omega

theorem I4_of_keys_nodup (s : HashMap K V) (h : (s.table.flatten.map Prod.fst).Nodup) :
    I4 s := by
  intro c hc
  rw [List.map_flatten, List.nodup_flatten] at h
  exact h.1 _ (List.mem_map_of_mem _ hc)

theorem lookup_eq_some_iff (key : K) (l : List (K × V)) (hn : (l.map Prod.fst).Nodup)
    (p : K × V) : lookup key l = some p ↔ p ∈ l ∧ p.1 = key := by
  constructor
  · intro h
    exact ⟨(lookup_key key l p h).2, (lookup_key key l p h).1⟩
  · rintro ⟨hp, hk⟩
    induction l with
    | nil => simp at hp
    | cons q r ih =>
      simp only [List.map_cons, List.nodup_cons] at hn
      rcases List.mem_cons.1 hp with rfl | hp
      · simp [lookup, hk]
      · have hq : q.1 ≠ key := by
          intro hq
          apply hn.1
          rw [hq, ← hk]
          exact List.mem_map_of_mem _ hp
        simpa [lookup, hq] using ih hn.2 hp

theorem lookup_congr (key : K) (l l' : List (K × V)) (hn : (l.map Prod.fst).Nodup)
    (hn' : (l'.map Prod.fst).Nodup)
    (h : ∀ p, p.1 = key → (p ∈ l' ↔ p ∈ l)) : lookup key l' = lookup key l := by
  apply Option.ext
  intro p
  simp only [Option.mem_def]
  rw [lookup_eq_some_iff key l' hn', lookup_eq_some_iff key l hn]
  constructor
  · rintro ⟨a, b⟩; exact ⟨(h p b).1 a, b⟩
  · rintro ⟨a, b⟩; exact ⟨(h p b).2 a, b⟩

end EraseLemmas

section EraseIndex
variable {K : Type u} {V : Type v} [DecidableEq K]

theorem erase_absent (H : K → Nat) (s : HashMap K V) (key : K)
    (habs : s.entry H key = none) : s.erase H key = s := by
  unfold HashMap.erase
  simp only [(HashMap.find_pos_eq_length H s key).2 habs, ne_eq, not_true_eq_false, if_false]

theorem erase_present (H : K → Nat) (s : HashMap K V) (key : K)
    (hpre : s.entry H key ≠ none) :
    s.erase H key = (HashMap.fit_load H
      { s with
        table := (s.table.set (H key % s.table.length)
          (erase_chain (chainAt s.table (H key % s.table.length)) (s.find_pos H key))),
        number := s.number - 1 }).1 := by
  unfold HashMap.erase
  have : ¬ s.find_pos H key = (chainAt s.table (H key % s.table.length)).length := by
    rw [HashMap.find_pos_eq_length]; exact hpre
  simp only [ne_eq, this, not_false_eq_true, if_true]

theorem find_pos_lt (H : K → Nat) (s : HashMap K V) (key : K)
    (hpre : s.entry H key ≠ none) :
    s.find_pos H key < (chainAt s.table (H key % s.table.length)).length := by
  have h1 : ¬ s.find_pos H key = (chainAt s.table (H key % s.table.length)).length := by
    rw [HashMap.find_pos_eq_length]; exact hpre
  have h2 := find_pos_loop_le key (chainAt s.table (H key % s.table.length))
  unfold HashMap.find_pos at *
  omega

theorem get_find_pos_key (H : K → Nat) (s : HashMap K V) (key : K)
    (hpre : s.entry H key ≠ none) :
    ((chainAt s.table (H key % s.table.length)).get
      ⟨s.find_pos H key, find_pos_lt H s key hpre⟩).1 = key := by
  have h := get?_find_pos_loop key (chainAt s.table (H key % s.table.length))
  have hlt := find_pos_lt H s key hpre
  unfold HashMap.find_pos at hlt ⊢
  rw [List.get?_eq_get hlt] at h
  exact (lookup_key _ _ _ h.symm).1

theorem erase_present_spec (H : K → Nat) (s : HashMap K V) (key : K)
    (h1 : I1 H s) (h3 : I3 s) (hpre : s.entry H key ≠ none) :
    ∃ x : K × V, x.1 = key ∧
      s.table.flatten.Perm (x :: (s.erase H key).table.flatten) ∧
      I1 H (s.erase H key) ∧ I3 (s.erase H key) ∧
      (s.erase H key).number = s.number - 1 ∧
      (s.erase H key).maxload = s.maxload ∧ (s.erase H key).minload = s.minload := by
  have hlt := find_pos_lt H s key hpre
  have hid : H key % s.table.length < s.table.length := Nat.mod_lt _ h3
  have hperm := flatten_erase_perm s.table _ _ hid hlt
  have hc := erase_chain_perm (chainAt s.table (H key % s.table.length)) _ hlt
  have h3' : I3 { s with
        table := (s.table.set (H key % s.table.length)
          (erase_chain (chainAt s.table (H key % s.table.length)) (s.find_pos H key))),
        number := s.number - 1 } := by
    unfold I3 at *; simpa using h3
  have h1' : I1 H { s with
        table := (s.table.set (H key % s.table.length)
          (erase_chain (chainAt s.table (H key % s.table.length)) (s.find_pos H key))),
        number := s.number - 1 } := by
    intro i hi p hp
    simp only [List.length_set] at hi ⊢
    simp only [chainAt_set _ _ _ _ hid] at hp
    split at hp
    · rename_i hh
      have : p ∈ chainAt s.table (H key % s.table.length) :=
        hc.mem_iff.2 (List.mem_cons_of_mem _ hp)
      rw [← hh] at this
      exact h1 i hi p this
    · exact h1 i hi p hp
  refine ⟨_, get_find_pos_key H s key hpre, ?_, ?_, ?_, ?_, ?_, ?_⟩
  · rw [erase_present H s key hpre]
    exact hperm.trans (List.Perm.cons _ (fit_load_perm H _ h3').symm)
  · rw [erase_present H s key hpre]; exact fit_load_I1 H _ h1' h3'
  · rw [erase_present H s key hpre]; exact fit_load_I3 H _ h3'
  · rw [erase_present H s key hpre, fit_load_number]
  · rw [erase_present H s key hpre, fit_load_maxload]
  · rw [erase_present H s key hpre, fit_load_minload]

theorem I2_iff_flatten (s : HashMap K V) : I2 s ↔ s.number = s.table.flatten.length := by
  unfold I2; rw [List.length_flatten]

theorem mem_flatten_hasKey (s : HashMap K V) (key : K) :
    s.hasKey key ↔ ∃ p ∈ s.table.flatten, p.1 = key := by
  unfold HashMap.hasKey
  constructor
  · rintro ⟨c, hc, p, hp, hk⟩
    exact ⟨p, List.mem_flatten.2 ⟨c, hc, hp⟩, hk⟩
  · rintro ⟨p, hp, hk⟩
    obtain ⟨c, hc, hpc⟩ := List.mem_flatten.1 hp
    exact ⟨c, hc, p, hpc, hk⟩

theorem erase_entry_same (H : K → Nat) (s : HashMap K V) (key : K)
    (h1 : I1 H s) (h3 : I3 s) (h4 : I4 s) : (s.erase H key).entry H key = none := by
  by_cases hpre : s.entry H key = none
  · rw [erase_absent H s key hpre]; exact hpre
  · obtain ⟨x, hx, hperm, h1', _⟩ := erase_present_spec H s key h1 h3 hpre
    have hn := keys_nodup_of_I1_I4 H s h1 h4
    rw [(hperm.map Prod.fst).nodup_iff] at hn
    simp only [List.map_cons, List.nodup_cons] at hn
    rw [← lookup_flatten H _ h1', lookup_eq_none]
    intro p hp hk
    apply hn.1
    have hm := List.mem_map_of_mem Prod.fst hp
    rw [hk] at hm
    rw [hx]
    exact hm

theorem erase_entry_other (H : K → Nat) (s : HashMap K V) (key : K)
    (h1 : I1 H s) (h3 : I3 s) (h4 : I4 s) (k' : K) (hk : k' ≠ key) :
    (s.erase H key).entry H k' = s.entry H k' := by
  by_cases hpre : s.entry H key = none
  · rw [erase_absent H s key hpre]
  · obtain ⟨x, hx, hperm, h1', _⟩ := erase_present_spec H s key h1 h3 hpre
    have hn := keys_nodup_of_I1_I4 H s h1 h4
    have hn' := hn
    rw [(hperm.map Prod.fst).nodup_iff] at hn'
    simp only [List.map_cons, List.nodup_cons] at hn'
    rw [← lookup_flatten H _ h1', ← lookup_flatten H _ h1]
    apply lookup_congr k' _ _ hn hn'.2
    intro p hp
    rw [hperm.mem_iff, List.mem_cons]
    constructor
    · exact fun h => Or.inr h
    · rintro (rfl | h)
      · exact absurd (hp.symm.trans hx) hk
      · exact h

/-! ### `operator[]` and writes through its result -/

theorem find_pos_loop_append_absent (key : K) (c : List (K × V)) (v : V)
    (h : ∀ p ∈ c, p.1 ≠ key) : find_pos_loop key (c ++ [(key, v)]) = c.length := by
  induction c with
  | nil => simp [find_pos_loop]
  | cons q r ih =>
    have hq : q.1 ≠ key := h q (List.mem_cons_self _ _)
    rw [List.cons_append]
    simp only [find_pos_loop, if_neg hq, List.length_cons]
    rw [ih (fun p hp => h p (List.mem_cons_of_mem _ hp))]

theorem find_of_entry (H : K → Nat) (s : HashMap K V) (key : K)
    (hpre : s.entry H key ≠ none) :
    s.find H key = ⟨H key % s.table.length, s.table.length - 1, s.find_pos H key⟩ := by
  have h1 : ¬ s.find_pos H key = (chainAt s.table (H key % s.table.length)).length := by
    rw [HashMap.find_pos_eq_length]; exact hpre
  unfold HashMap.find
  simp only [ne_eq, h1, not_false_eq_true, if_true]
  unfold Iterator.construct
  exact Iterator.skip_stop _ _ _ _ _ (fun hh => h1 hh.1)

theorem index_state (H : K → Nat) (dflt : V) (s : HashMap K V) (key : K) :
    (s.index H dflt key).1 = s.insert H (key, dflt) := by
  unfold HashMap.index HashMap.insert
  simp only
  split
  · split <;> rfl
  · rfl

theorem index_slot (H : K → Nat) (dflt : V) (s : HashMap K V) (key : K)
    (h1 : I1 H s) (h3 : I3 s) :
    (s.index H dflt key).2 =
      (H key % (s.index H dflt key).1.table.length, (s.index H dflt key).1.find_pos H key) ∧
    ∃ p, (s.index H dflt key).1.entry H key = some p ∧
      (s.entry H key = none → p = (key, dflt)) ∧ (s.entry H key ≠ none → s.entry H key = some p) := by
  by_cases habs : s.entry H key = none
  · have hfp := (HashMap.find_pos_eq_length H s key).2 habs
    have he := insert_entry_same H s (key, dflt) h1 h3 habs
    rw [← index_state] at he
    refine ⟨?_, (key, dflt), he, fun _ => rfl, fun h => absurd habs h⟩
    have hne : (s.index H dflt key).1.entry H key ≠ none := by simp [he]
    unfold HashMap.index at hne ⊢
    simp only [hfp, if_true] at hne ⊢
    split
    · rename_i hr
      simp only [hr, if_true] at hne
      simp only [find_of_entry H _ key hne]
    · rename_i hr
      have hr' : (HashMap.fit_load H
          { s with table := push_back_at s.table (H key % s.table.length) (key, dflt),
                   number := s.number + 1 }).2 = false := by
        simpa using hr
      rcases fit_load_cases H
          { s with table := push_back_at s.table (H key % s.table.length) (key, dflt),
                   number := s.number + 1 } with ⟨_, h⟩ | ⟨ht, _⟩
      · rw [h]
        simp only [length_push_back_at, Prod.mk.injEq, true_and]
        unfold HashMap.find_pos
        simp only [length_push_back_at, chainAt_push_back_at _ _ _ _ (Nat.mod_lt (H key) h3),
          if_true]
        rw [find_pos_loop_append_absent key _ dflt
          ((lookup_eq_none _ _).1 habs)]
        simp
      · rw [hr'] at ht; exact absurd ht (by simp)
  · obtain ⟨p, hp⟩ := Option.ne_none_iff_exists'.1 habs
    have hfp : ¬ s.find_pos H key = (chainAt s.table (H key % s.table.length)).length := by
      rw [HashMap.find_pos_eq_length]; exact habs
    have hst : s.index H dflt key = (s, (H key % s.table.length, s.find_pos H key)) := by
      unfold HashMap.index
      simp only [hfp, if_false]
    rw [hst]
    exact ⟨rfl, p, hp, fun h => absurd h habs, fun _ => hp⟩

theorem chainAt_modify (t : List (List (K × V))) (g : List (K × V) → List (K × V))
    (id i : Nat) (hid : id < t.length) :
    chainAt (t.modify g id) i = if i = id then g (chainAt t id) else chainAt t i := by
  unfold chainAt
  simp only [List.getD_eq_getElem?_getD, List.getElem?_modify]
  by_cases h : i = id
  · subst h
    simp [List.getElem?_eq_getElem hid]
  · simp only [h, if_false]
    cases t[i]? <;> simp [Ne.symm h]

theorem lookup_modify_same (key : K) (v : V) (c : List (K × V))
    (h : lookup key c ≠ none) :
    lookup key (c.modify (fun p => (p.1, v)) (find_pos_loop key c)) = some (key, v) := by
  induction c with
  | nil => simp [lookup] at h
  | cons q r ih =>
    by_cases hq : q.1 = key
    · simp [find_pos_loop, hq, lookup]
    · simp only [find_pos_loop, if_neg hq, List.modify_succ_cons]
      have hr : lookup key r ≠ none := by simpa [lookup, hq] using h
      simpa [lookup, hq] using ih hr

theorem lookup_modify_other (key k' : K) (v : V) (c : List (K × V)) (hk : k' ≠ key) :
    lookup k' (c.modify (fun p => (p.1, v)) (find_pos_loop key c)) = lookup k' c := by
  induction c with
  | nil => simp [lookup]
  | cons q r ih =>
    by_cases hq : q.1 = key
    · have : q.1 ≠ k' := by rw [hq]; exact Ne.symm hk
      simp [find_pos_loop, hq, lookup, Ne.symm hk]
    · simp only [find_pos_loop, if_neg hq, List.modify_succ_cons]
      by_cases hq' : q.1 = k'
      · simp [lookup, hq']
      · simpa [lookup, hq'] using ih

theorem write_entry_same (H : K → Nat) (s : HashMap K V) (key : K) (v : V) (h3 : I3 s)
    (hpre : s.entry H key ≠ none) :
    (s.write (H key % s.table.length, s.find_pos H key) v).entry H key = some (key, v) := by
  unfold HashMap.entry HashMap.write
  simp only [List.length_modify, chainAt_modify _ _ _ _ (Nat.mod_lt (H key) h3), if_true]
  exact lookup_modify_same key v _ hpre

theorem write_entry_other (H : K → Nat) (s : HashMap K V) (key k' : K) (v : V) (h3 : I3 s)
    (hk : k' ≠ key) :
    (s.write (H key % s.table.length, s.find_pos H key) v).entry H k' = s.entry H k' := by
  unfold HashMap.entry HashMap.write
  simp only [List.length_modify, chainAt_modify _ _ _ _ (Nat.mod_lt (H key) h3)]
  split
  · rename_i hh
    rw [← hh]
    unfold HashMap.find_pos
    rw [← hh]
    exact lookup_modify_other key k' v _ hk
  · rfl

end EraseIndex

section IteratorLemmas
variable {K : Type u} {V : Type v}

theorem chainAt_of_lt (t : List (List (K × V))) (i : Nat) (h : i < t.length) :
    chainAt t i = t[i] := by
  simp [chainAt, List.getD_eq_getElem?_getD, h]

theorem flatten_drop (t : List (List (K × V))) (i : Nat) (h : i < t.length) :
    (t.drop i).flatten = chainAt t i ++ (t.drop (i + 1)).flatten := by
  rw [List.drop_eq_getElem_cons h, List.flatten_cons, chainAt_of_lt t i h]

theorem Iterator.skip_spec (t : List (List (K × V))) (last : Nat) (hl : last + 1 = t.length)
    (fuel id pos : Nat) (hf : last ≤ id + fuel) (hid : id ≤ last)
    (hpos : pos ≤ (chainAt t id).length) :
    Iterator.valid t (Iterator.skip t last fuel id pos) ∧
    Iterator.rest t (Iterator.skip t last fuel id pos) = Iterator.rest t ⟨id, last, pos⟩ := by
  induction fuel generalizing id pos with
  | zero =>
    have : id = last := by omega
    simp only [Iterator.skip, Iterator.valid]
    exact ⟨⟨hl, hid, hpos, Or.inr this⟩, trivial⟩
  | succ n ih =>
    simp only [Iterator.skip]
    split
    · rename_i hc
      have h1 : id + 1 ≤ last := by omega
      obtain ⟨hv, hr⟩ := ih (id + 1) 0 (by omega) h1 (Nat.zero_le _)
      refine ⟨hv, hr.trans ?_⟩
      simp only [Iterator.rest, List.drop_zero]
      rw [hc.1, List.drop_length, List.nil_append]
      exact (flatten_drop t (id + 1) (by omega)).symm
    · rename_i hc
      refine ⟨⟨hl, hid, hpos, ?_⟩, rfl⟩
      simp only
      by_cases hp : pos = (chainAt t id).length
      · right
        by_contra hne
        exact hc ⟨hp, hne⟩
      · left; omega

theorem begin_valid (s : HashMap K V) (h3 : I3 s) :
    Iterator.valid s.table s.begin ∧ Iterator.rest s.table s.begin = s.table.flatten := by
  unfold I3 at h3
  unfold HashMap.begin Iterator.construct
  obtain ⟨hv, hr⟩ := Iterator.skip_spec s.table (s.table.length - 1) (by omega)
    s.table.length 0 0 (by omega) (Nat.zero_le _) (Nat.zero_le _)
  refine ⟨hv, hr.trans ?_⟩
  simp only [Iterator.rest, List.drop_zero]
  exact (flatten_drop s.table 0 (by omega)).symm

theorem eq_end_iff_rest (s : HashMap K V) (it : Iterator) (hv : Iterator.valid s.table it) :
    Iterator.eq it s.end_ = true ↔ Iterator.rest s.table it = [] := by
  obtain ⟨hl, hid, hpos, hn⟩ := hv
  rw [HashMap.end_eq]
  simp only [Iterator.eq, decide_eq_true_eq, Iterator.rest, List.append_eq_nil,
    List.drop_eq_nil_iff]
  have hlast : s.table.length - 1 = it.last := by omega
  rw [hlast]
  constructor
  · rintro ⟨h1, h2⟩
    refine ⟨by rw [h2, h1], ?_⟩
    rw [h1, hl]
    simp
  · rintro ⟨h1, h2⟩
    have hp : ¬ it.pos < (chainAt s.table it.id).length := by omega
    have hi : it.id = it.last := hn.resolve_left hp
    refine ⟨hi, ?_⟩
    rw [← hi]; omega

theorem rest_cons (t : List (List (K × V))) (it : Iterator) (hv : Iterator.valid t it)
    (p : K × V) (r : List (K × V)) (h : Iterator.rest t it = p :: r) :
    Iterator.deref t it = some p ∧ Iterator.valid t (Iterator.incr t it) ∧
      Iterator.rest t (Iterator.incr t it) = r := by
  obtain ⟨hl, hid, hpos, hn⟩ := hv
  have hlt : it.pos < (chainAt t it.id).length := by
    by_contra hc
    have hi : it.id = it.last := hn.resolve_left hc
    simp only [Iterator.rest] at h
    rw [List.drop_eq_nil_iff.2 (by omega), hi, hl] at h
    simp at h
  simp only [Iterator.rest] at h
  rw [List.drop_eq_getElem_cons hlt, List.cons_append] at h
  have hp : (chainAt t it.id)[it.pos] = p := (List.cons.inj h).1
  have hr : List.drop (it.pos + 1) (chainAt t it.id) ++ (List.drop (it.id + 1) t).flatten = r :=
    (List.cons.inj h).2
  refine ⟨?_, ?_⟩
  · simp only [Iterator.deref]
    rw [List.get?_eq_getElem?, List.getElem?_eq_getElem hlt, hp]
  · have hcond : ¬ (it.id = it.last ∧ it.pos = (chainAt t it.id).length) := by
      intro hc; omega
    simp only [Iterator.incr, if_neg hcond]
    obtain ⟨hv', hr'⟩ := Iterator.skip_spec t it.last hl t.length it.id (it.pos + 1)
      (by omega) hid (by omega)
    exact ⟨hv', hr'.trans hr⟩

theorem traverse_from_spec (s : HashMap K V) (fuel : Nat) (it : Iterator)
    (hv : Iterator.valid s.table it) (hf : (Iterator.rest s.table it).length ≤ fuel) :
    s.traverse_from fuel it = some (Iterator.rest s.table it) := by
  induction fuel generalizing it with
  | zero =>
    have hnil : Iterator.rest s.table it = [] := List.length_eq_zero.1 (by omega)
    simp only [HashMap.traverse_from, (eq_end_iff_rest s it hv).2 hnil, if_true, hnil]
  | succ n ih =>
    cases hr : Iterator.rest s.table it with
    | nil =>
      simp only [HashMap.traverse_from, (eq_end_iff_rest s it hv).2 hr, if_true]
    | cons p r =>
      have hne : ¬ Iterator.eq it s.end_ = true := by
        rw [eq_end_iff_rest s it hv, hr]; simp
      obtain ⟨hd, hv', hr'⟩ := rest_cons s.table it hv p r hr
      simp only [HashMap.traverse_from, hne, if_false, hd]
      rw [ih _ hv' (by rw [hr']; rw [hr] at hf; simpa using hf), hr']
      rfl

theorem iterate_incr_spec (t : List (List (K × V))) (it : Iterator)
    (hv : Iterator.valid t it) (n : Nat) (hn : n ≤ (Iterator.rest t it).length) :
    Iterator.valid t ((Iterator.incr t)^[n] it) ∧
      Iterator.rest t ((Iterator.incr t)^[n] it) = (Iterator.rest t it).drop n := by
  induction n generalizing it with
  | zero => exact ⟨hv, rfl⟩
  | succ m ih =>
    cases hr : Iterator.rest t it with
    | nil => rw [hr] at hn; simp at hn
    | cons p r =>
      obtain ⟨_, hv', hr'⟩ := rest_cons t it hv p r hr
      rw [Function.iterate_succ_apply]
      obtain ⟨a, b⟩ := ih _ hv' (by rw [hr']; rw [hr] at hn; simpa using hn)
      exact ⟨a, by rw [b, hr']; rfl⟩

theorem traversal_spec (s : HashMap K V) (h3 : I3 s) :
    (∀ fuel, (s.table.map List.length).sum ≤ fuel →
      s.traverse fuel = some s.table.flatten) ∧
    (∀ n, n < (s.table.map List.length).sum →
      Iterator.eq ((Iterator.incr s.table)^[n] s.begin) s.end_ = false ∧
      Iterator.deref s.table ((Iterator.incr s.table)^[n] s.begin) = s.table.flatten.get? n) ∧
    Iterator.eq ((Iterator.incr s.table)^[(s.table.map List.length).sum] s.begin) s.end_
      = true := by
  obtain ⟨hv, hr⟩ := begin_valid s h3
  rw [← List.length_flatten]
  refine ⟨?_, ?_, ?_⟩
  · intro fuel hf
    unfold HashMap.traverse
    rw [traverse_from_spec s fuel _ hv (by rw [hr]; exact hf), hr]
  · intro n hn
    obtain ⟨a, b⟩ := iterate_incr_spec s.table _ hv n (by rw [hr]; omega)
    rw [hr] at b
    have hd : s.table.flatten.drop n = s.table.flatten[n] :: s.table.flatten.drop (n + 1) :=
      List.drop_eq_getElem_cons hn
    rw [hd] at b
    constructor
    · cases hb : Iterator.eq ((Iterator.incr s.table)^[n] s.begin) s.end_ with
      | false => rfl
      | true =>
        rw [eq_end_iff_rest s _ a, b] at hb
        exact absurd hb (List.cons_ne_nil _ _)
    · rw [(rest_cons s.table _ a _ _ b).1, List.get?_eq_getElem?, List.getElem?_eq_getElem hn]
  · obtain ⟨a, b⟩ := iterate_incr_spec s.table _ hv s.table.flatten.length (by rw [hr])
    rw [eq_end_iff_rest s _ a, b, hr]
    simp

end IteratorLemmas

section RunLemmas
variable {K : Type u} {V : Type v} [DecidableEq K]

theorem map_modify_comm {α : Type u} {β : Type v} (g : α → β) (f : α → α)
    (hf : ∀ a, g (f a) = g a) (n : Nat) (l : List α) :
    (l.modify f n).map g = l.map g := by
  induction l generalizing n with
  | nil => simp
  | cons a r ih =>
    cases n with
    | zero => simp [hf]
    | succ m => simp [ih]

theorem write_keys (s : HashMap K V) (slot : Nat × Nat) (v : V) :
    (s.write slot v).table.map (List.map Prod.fst) = s.table.map (List.map Prod.fst) := by
  unfold HashMap.write
  simp only
  apply map_modify_comm
  intro c
  apply map_modify_comm
  intro p
  rfl

theorem chain_keys (t : List (List (K × V))) (i : Nat) :
    (chainAt t i).map Prod.fst = (t.map (List.map Prod.fst)).getD i [] := by
  unfold chainAt
  simp only [List.getD_eq_getElem?_getD, List.getElem?_map]
  cases t[i]? <;> rfl

theorem I1_congr (H : K → Nat) (s s' : HashMap K V)
    (h : s'.table.map (List.map Prod.fst) = s.table.map (List.map Prod.fst))
    (h1 : I1 H s) : I1 H s' := by
  have hlen : s'.table.length = s.table.length := by
    have := congrArg List.length h
    simpa using this
  intro i hi p hp
  rw [hlen] at hi ⊢
  have hk : p.1 ∈ (chainAt s'.table i).map Prod.fst := List.mem_map_of_mem _ hp
  rw [chain_keys, h, ← chain_keys] at hk
  obtain ⟨q, hq, hqk⟩ := List.mem_map.1 hk
  rw [← hqk]
  exact h1 i hi q hq

theorem flatten_keys (t : List (List (K × V))) :
    t.flatten.map Prod.fst = (t.map (List.map Prod.fst)).flatten :=
  List.map_flatten _ _

theorem insert_absent_spec (H : K → Nat) (s : HashMap K V) (p : K × V)
    (h1 : I1 H s) (h3 : I3 s) (habs : s.entry H p.1 = none) :
    (s.insert H p).table.flatten.Perm (p :: s.table.flatten) ∧
    I1 H (s.insert H p) ∧ I3 (s.insert H p) ∧ (s.insert H p).number = s.number + 1 ∧
    (s.insert H p).maxload = s.maxload ∧ (s.insert H p).minload = s.minload := by
  rw [insert_absent H s p habs]
  refine ⟨?_, fit_load_I1 H _ (push_I1 H s p h1 h3) (push_I3 s _ p h3),
    fit_load_I3 H _ (push_I3 s _ p h3), ?_, ?_, ?_⟩
  · exact (fit_load_perm H _ (push_I3 s _ p h3)).trans
      (flatten_push_perm s.table _ p (Nat.mod_lt _ h3))
  · rw [fit_load_number]
  · rw [fit_load_maxload]
  · rw [fit_load_minload]

theorem mem_keys_iff_entry (H : K → Nat) (s : HashMap K V) (h1 : I1 H s) (key : K) :
    key ∈ s.table.flatten.map Prod.fst ↔ s.entry H key ≠ none := by
  rw [← hasKey_iff_entry H s h1 key, mem_flatten_hasKey]
  simp only [List.mem_map]

theorem insert_invariant (H : K → Nat) (s : HashMap K V) (p : K × V) (live : List K)
    (h1 : I1 H s) (h2 : I2 s) (h3 : I3 s)
    (hk : (s.table.flatten.map Prod.fst).Perm live) :
    I1 H (s.insert H p) ∧ I2 (s.insert H p) ∧ I3 (s.insert H p) ∧
    ((s.insert H p).table.flatten.map Prod.fst).Perm (List.insert p.1 live) := by
  by_cases habs : s.entry H p.1 = none
  · obtain ⟨hperm, a, b, c, _⟩ := insert_absent_spec H s p h1 h3 habs
    have hnot : p.1 ∉ live := by
      rw [← hk.mem_iff, mem_keys_iff_entry H s h1]
      simpa using habs
    refine ⟨a, ?_, b, ?_⟩
    · rw [I2_iff_flatten] at h2 ⊢
      rw [c, hperm.length_eq, h2]
      simp
    · rw [List.insert_of_not_mem hnot]
      exact (hperm.map Prod.fst).trans (List.Perm.cons _ hk)
  · have hmem : p.1 ∈ live := by
      rw [← hk.mem_iff, mem_keys_iff_entry H s h1]
      exact habs
    rw [insert_present H s p habs, List.insert_of_mem hmem]
    exact ⟨h1, h2, h3, hk⟩

theorem erase_invariant (H : K → Nat) (s : HashMap K V) (key : K) (live : List K)
    (h1 : I1 H s) (h2 : I2 s) (h3 : I3 s)
    (hk : (s.table.flatten.map Prod.fst).Perm live) :
    I1 H (s.erase H key) ∧ I2 (s.erase H key) ∧ I3 (s.erase H key) ∧
    ((s.erase H key).table.flatten.map Prod.fst).Perm (live.erase key) := by
  by_cases habs : s.entry H key = none
  · have hnot : key ∉ live := by
      rw [← hk.mem_iff, mem_keys_iff_entry H s h1]
      simpa using habs
    rw [erase_absent H s key habs, List.erase_of_not_mem hnot]
    exact ⟨h1, h2, h3, hk⟩
  · obtain ⟨x, hx, hperm, a, b, c, _⟩ := erase_present_spec H s key h1 h3 habs
    refine ⟨a, ?_, b, ?_⟩
    · rw [I2_iff_flatten] at h2 ⊢
      rw [c, h2, hperm.length_eq]
      simp
    · have h5 := (hperm.map Prod.fst).symm.trans hk
      have h6 := h5.erase key
      simp only [List.map_cons, hx, List.erase_cons_head] at h6
      exact h6

theorem write_invariant (H : K → Nat) (s : HashMap K V) (slot : Nat × Nat) (v : V)
    (live : List K) (h1 : I1 H s) (h2 : I2 s) (h3 : I3 s)
    (hk : (s.table.flatten.map Prod.fst).Perm live) :
    I1 H (s.write slot v) ∧ I2 (s.write slot v) ∧ I3 (s.write slot v) ∧
    ((s.write slot v).table.flatten.map Prod.fst).Perm live := by
  have hkeys := write_keys s slot v
  have hlen : (s.write slot v).table.length = s.table.length := by
    simpa using congrArg List.length hkeys
  have hfl : (s.write slot v).table.flatten.map Prod.fst = s.table.flatten.map Prod.fst := by
    rw [flatten_keys, flatten_keys, hkeys]
  refine ⟨I1_congr H s _ hkeys h1, ?_, ?_, ?_⟩
  · rw [I2_iff_flatten] at h2 ⊢
    have := congrArg List.length hfl
    simp only [List.length_map] at this
    rw [this]
    exact h2
  · unfold I3 at *; rw [hlen]; exact h3
  · rw [hfl]; exact hk

theorem apply_invariant (H : K → Nat) (dflt : V) (s : HashMap K V) (op : Op K V)
    (live : List K) (h1 : I1 H s) (h2 : I2 s) (h3 : I3 s)
    (hk : (s.table.flatten.map Prod.fst).Perm live) :
    I1 H (s.apply H dflt op) ∧ I2 (s.apply H dflt op) ∧ I3 (s.apply H dflt op) ∧
    ((s.apply H dflt op).table.flatten.map Prod.fst).Perm (liveStep live op) := by
  cases op with
  | insert k v => exact insert_invariant H s (k, v) live h1 h2 h3 hk
  | erase k => exact erase_invariant H s k live h1 h2 h3 hk
  | index k w =>
    have hi := insert_invariant H s (k, dflt) live h1 h2 h3 hk
    rw [← index_state] at hi
    cases w with
    | none => exact hi
    | some v =>
      obtain ⟨a, b, c, d⟩ := hi
      exact write_invariant H _ _ v _ a b c d
  | clear =>
    refine ⟨?_, ?_, ?_, ?_⟩
    · intro i hi p hp
      simp only [HashMap.apply, HashMap.clear, List.length_singleton] at hi hp
      have : i = 0 := by omega
      subst this
      simp [chainAt] at hp
    · simp [HashMap.apply, HashMap.clear, I2]
    · simp [HashMap.apply, HashMap.clear, I3]
    · simp [HashMap.apply, HashMap.clear, liveStep]

theorem liveStep_nodup (live : List K) (op : Op K V) (h : live.Nodup) :
    (liveStep live op).Nodup := by
  cases op with
  | insert k v => exact h.insert
  | erase k => exact h.erase k
  | index k w => exact h.insert
  | clear => exact List.nodup_nil

theorem run_invariant (H : K → Nat) (dflt : V) (ops : List (Op K V)) :
    I1 H (HashMap.run H dflt ops) ∧ I2 (HashMap.run H dflt ops) ∧
    I3 (HashMap.run H dflt ops) ∧
    ((HashMap.run H dflt ops).table.flatten.map Prod.fst).Perm (liveKeys ops) ∧
    (liveKeys ops).Nodup := by
  induction ops using List.reverseRecOn with
  | nil =>
    refine ⟨?_, ?_, ?_, ?_, ?_⟩
    · intro i hi p hp
      simp only [HashMap.run, List.foldl_nil, HashMap.new, List.length_singleton] at hi hp
      have : i = 0 := by omega
      subst this
      simp [chainAt] at hp
    · simp [HashMap.run, HashMap.new, I2]
    · simp [HashMap.run, HashMap.new, I3]
    · simp [HashMap.run, HashMap.new, liveKeys]
    · simp [liveKeys]
  | append_singleton ops op ih =>
    obtain ⟨h1, h2, h3, hk, hn⟩ := ih
    have hr : HashMap.run H dflt (ops ++ [op]) = (HashMap.run H dflt ops).apply H dflt op := by
      simp [HashMap.run, List.foldl_append]
    have hl : liveKeys (ops ++ [op]) = liveStep (liveKeys ops) op := by
      simp [liveKeys, List.foldl_append]
    rw [hr, hl]
    obtain ⟨a, b, c, d⟩ := apply_invariant H dflt _ op _ h1 h2 h3 hk
    exact ⟨a, b, c, d, liveStep_nodup _ op hn⟩

end RunLemmas

section LoadLemmas
variable {K : Type u} {V : Type v} [DecidableEq K]

theorem fit_load_length (H : K → Nat) (s : HashMap K V) :
    (s.fit_load H).1.table.length =
      if mulSize s.number s.maxload ≤ s.table.length ∧
          mulSize s.number s.minload ≥ s.table.length then s.table.length
      else if mulSize s.number s.maxload > s.table.length then 2 * s.table.length
      else (s.table.length + 1) / 2 := by
  unfold HashMap.fit_load
  split
  · rfl
  · simp only [rehash_length, multiplicator]
    split <;> rfl

theorem fit_load_length_default (H : K → Nat) (s : HashMap K V)
    (hmax : s.maxload = 1) (hmin : s.minload = 8) (hb : s.number < 2 ^ 61) :
    (s.fit_load H).1.table.length =
      if s.number ≤ s.table.length ∧ s.table.length ≤ 8 * s.number then s.table.length
      else if s.number > s.table.length then 2 * s.table.length
      else (s.table.length + 1) / 2 := by
  rw [fit_load_length, hmax, hmin]
  have e1 : mulSize s.number 1 = s.number := by
    unfold mulSize; omega
  have e2 : mulSize s.number 8 = 8 * s.number := by
    unfold mulSize; omega
  rw [e1, e2]

theorem apply_load (H : K → Nat) (dflt : V) (s : HashMap K V) (op : Op K V) (m : Nat)
    (h1 : I1 H s) (h2 : I2 s) (h3 : I3 s)
    (hmax : s.maxload = 1) (hmin : s.minload = 8)
    (hm : s.number ≤ m) (hb : m + 1 < 2 ^ 61)
    (hu : s.number ≤ s.table.length)
    (hl : s.table.length ≤ 8 * s.number ∨ (s.number = 0 ∧ s.table.length ≤ 4)) :
    (s.apply H dflt op).maxload = 1 ∧ (s.apply H dflt op).minload = 8 ∧
    (s.apply H dflt op).number ≤ m + 1 ∧
    (s.apply H dflt op).number ≤ (s.apply H dflt op).table.length ∧
    ((s.apply H dflt op).table.length ≤ 8 * (s.apply H dflt op).number ∨
      ((s.apply H dflt op).number = 0 ∧ (s.apply H dflt op).table.length ≤ 4)) := by
  unfold I3 at h3
  have hins : ∀ p : K × V,
      (s.insert H p).maxload = 1 ∧ (s.insert H p).minload = 8 ∧
      (s.insert H p).number ≤ m + 1 ∧
      (s.insert H p).number ≤ (s.insert H p).table.length ∧
      ((s.insert H p).table.length ≤ 8 * (s.insert H p).number ∨
        ((s.insert H p).number = 0 ∧ (s.insert H p).table.length ≤ 4)) := by
    intro p
    by_cases habs : s.entry H p.1 = none
    · rw [insert_absent H s p habs]
      have hlen := fit_load_length_default H
        { s with table := push_back_at s.table (H p.1 % s.table.length) p,
                 number := s.number + 1 } hmax hmin (by simp only; omega)
      simp only [length_push_back_at] at hlen
      rw [fit_load_maxload, fit_load_minload, fit_load_number, hlen]
      simp only
      refine ⟨hmax, hmin, by omega, ?_, ?_⟩
      · split
        · omega
        · split <;> omega
      · split
        · omega
        · split <;> omega
    · rw [insert_present H s p habs]
      exact ⟨hmax, hmin, by omega, hu, hl⟩
  cases op with
  | insert k v => exact hins (k, v)
  | erase k =>
    simp only [HashMap.apply]
    by_cases habs : s.entry H k = none
    · rw [erase_absent H s k habs]
      exact ⟨hmax, hmin, by omega, hu, hl⟩
    · obtain ⟨x, _, hperm, _⟩ := erase_present_spec H s k h1 h3 habs
      have hpos : 1 ≤ s.number := by
        rw [(I2_iff_flatten s).1 h2, hperm.length_eq]
        simp
      rw [erase_present H s k habs]
      have hlen := fit_load_length_default H
        { s with
          table := (s.table.set (H k % s.table.length)
            (erase_chain (chainAt s.table (H k % s.table.length)) (s.find_pos H k))),
          number := s.number - 1 } hmax hmin (by simp only; omega)
      simp only [List.length_set] at hlen
      rw [fit_load_maxload, fit_load_minload, fit_load_number, hlen]
      simp only
      refine ⟨hmax, hmin, by omega, ?_, ?_⟩
      · split
        · omega
        · split <;> omega
      · split
        · omega
        · split <;> omega
  | index k w =>
    have hi := hins (k, dflt)
    rw [← index_state] at hi
    cases w with
    | none => exact hi
    | some v =>
      simp only [HashMap.apply, HashMap.write, List.length_modify]
      exact hi
  | clear =>
    simp only [HashMap.apply, HashMap.clear, List.length_singleton]
    exact ⟨hmax, hmin, by omega, by omega, Or.inr ⟨trivial, by omega⟩⟩

theorem run_load (H : K → Nat) (dflt : V) (ops : List (Op K V)) (hb : ops.length < 2 ^ 61) :
    (HashMap.run H dflt ops).maxload = 1 ∧ (HashMap.run H dflt ops).minload = 8 ∧
    (HashMap.run H dflt ops).number ≤ ops.length ∧
    (HashMap.run H dflt ops).number ≤ (HashMap.run H dflt ops).table.length ∧
    ((HashMap.run H dflt ops).table.length ≤ 8 * (HashMap.run H dflt ops).number ∨
      ((HashMap.run H dflt ops).number = 0 ∧ (HashMap.run H dflt ops).table.length ≤ 4)) := by
  induction ops using List.reverseRecOn with
  | nil =>
    simp [HashMap.run, HashMap.new]
  | append_singleton ops op ih =>
    have hlen : (ops ++ [op]).length = ops.length + 1 := by simp
    rw [hlen] at hb ⊢
    obtain ⟨a, b, c, d, e⟩ := ih (by omega)
    obtain ⟨h1, h2, h3, _, _⟩ := run_invariant H dflt ops
    have hr : HashMap.run H dflt (ops ++ [op]) = (HashMap.run H dflt ops).apply H dflt op := by
      simp [HashMap.run, List.foldl_append]
    rw [hr]
    exact apply_load H dflt _ op ops.length h1 h2 h3 a b c hb d e

end LoadLemmas

section LiveLemmas
variable {K : Type u} {V : Type v} [DecidableEq K]

theorem liveKeys_nodup (ops : List (Op K V)) : (liveKeys ops).Nodup := by
  induction ops using List.reverseRecOn with
  | nil => simp [liveKeys]
  | append_singleton ops op ih =>
    have hl : liveKeys (ops ++ [op]) = liveStep (liveKeys ops) op := by
      simp [liveKeys, List.foldl_append]
    rw [hl]
    exact liveStep_nodup _ op ih

theorem mem_liveStep (live : List K) (op : Op K V) (h : live.Nodup) (k : K) :
    k ∈ liveStep live op ↔ op.inserts k ∨ (k ∈ live ∧ ¬ op.removes k) := by
  cases op with
  | insert k' v =>
    simp only [liveStep, List.mem_insert_iff, Op.inserts, Op.removes, not_false_eq_true,
      and_true]
    exact ⟨fun h => h.imp Eq.symm id, fun h => h.imp Eq.symm id⟩
  | erase k' =>
    simp only [liveStep, h.mem_erase_iff, Op.inserts, Op.removes, false_or]
    exact ⟨fun h => ⟨h.2, fun e => h.1 e.symm⟩, fun h => ⟨fun e => h.2 e.symm, h.1⟩⟩
  | index k' w =>
    simp only [liveStep, List.mem_insert_iff, Op.inserts, Op.removes, not_false_eq_true,
      and_true]
    exact ⟨fun h => h.imp Eq.symm id, fun h => h.imp Eq.symm id⟩
  | clear =>
    simp [liveStep, Op.inserts, Op.removes]

theorem mem_liveKeys (ops : List (Op K V)) (k : K) :
    k ∈ liveKeys ops ↔
      ∃ pre op post, ops = pre ++ op :: post ∧ op.inserts k ∧ ∀ o ∈ post, ¬ o.removes k := by
  induction ops using List.reverseRecOn with
  | nil => simp [liveKeys]
  | append_singleton ops o ih =>
    have hl : liveKeys (ops ++ [o]) = liveStep (liveKeys ops) o := by
      simp [liveKeys, List.foldl_append]
    rw [hl, mem_liveStep _ _ (liveKeys_nodup ops), ih]
    constructor
    · rintro (hi | ⟨⟨pre, op, post, rfl, hop, hpost⟩, hr⟩)
      · exact ⟨ops, o, [], rfl, hi, by simp⟩
      · refine ⟨pre, op, post ++ [o], by simp, hop, ?_⟩
        intro o' ho'
        rcases List.mem_append.1 ho' with h | h
        · exact hpost o' h
        · simp only [List.mem_singleton] at h
          rw [h]; exact hr
    · rintro ⟨pre, op, post, heq, hop, hpost⟩
      rcases List.eq_nil_or_concat post with rfl | ⟨post', o', rfl⟩
      · have h2 := List.append_inj' heq (by simp)
        have : o = op := by simpa using h2.2
        left; rw [this]; exact hop
      · have heq' : ops ++ [o] = (pre ++ op :: post') ++ [o'] := by
          rw [heq]; simp
        have h2 := List.append_inj' heq' (by simp)
        have ho : o = o' := by simpa using h2.2
        right
        refine ⟨⟨pre, op, post', h2.1, hop, fun x hx => hpost x (by simp [hx])⟩, ?_⟩
        rw [ho]
        exact hpost o' (by simp)

end LiveLemmas

section FuelLemmas
variable {K : Type u} {V : Type v}

/-- The loop of the iterator constructor never runs out of fuel: whenever the
fuel covers the buckets up to `last`, its result does not depend on the fuel. -/
theorem Iterator.skip_fuel (t : List (List (K × V))) (last fuel fuel' id pos : Nat)
    (hid : id ≤ last) (hf : last ≤ id + fuel) (hf' : last ≤ id + fuel') :
    Iterator.skip t last fuel id pos = Iterator.skip t last fuel' id pos := by
  induction fuel generalizing fuel' id pos with
  | zero =>
    have h : id = last := by omega
    rw [Iterator.skip_stop t last 0 id pos (fun hh => hh.2 h),
      Iterator.skip_stop t last fuel' id pos (fun hh => hh.2 h)]
  | succ n ih =>
    cases fuel' with
    | zero =>
      have h : id = last := by omega
      rw [Iterator.skip_stop t last (n + 1) id pos (fun hh => hh.2 h),
        Iterator.skip_stop t last 0 id pos (fun hh => hh.2 h)]
    | succ m =>
      simp only [Iterator.skip]
      split
      · rename_i hc
        exact ih m (id + 1) 0 (by omega) (by omega) (by omega)
      · rfl

end FuelLemmas

section CopyLemmas
variable {K : Type u} {V : Type v}

theorem foldl_push_back (acc l : List (K × V)) :
    l.foldl (fun chain x => chain ++ [x]) acc = acc ++ l := by
  induction l generalizing acc with
  | nil => simp
  | cons a r ih => simp [ih]

theorem resize_length (t : List (List (K × V))) (n : Nat) : (resize t n).length = n := by
  unfold resize
  simp only [List.length_append, List.length_take, List.length_replicate]
  omega

theorem copy_chains_aux (other t : List (List (K × V))) (n : Nat) (hn : n ≤ other.length)
    (ht : t.length = other.length) :
    ((List.range n).foldl
      (fun t id => t.set id ((chainAt other id).foldl (fun chain x => chain ++ [x]) []))
      t).length = other.length ∧
    ∀ i, ((List.range n).foldl
      (fun t id => t.set id ((chainAt other id).foldl (fun chain x => chain ++ [x]) []))
      t)[i]? = if i < n then other[i]? else t[i]? := by
  induction n with
  | zero => simp [ht]
  | succ m ih =>
    obtain ⟨hl, hg⟩ := ih (by omega)
    rw [List.range_succ, List.foldl_append]
    simp only [List.foldl_cons, List.foldl_nil, List.length_set]
    refine ⟨hl, ?_⟩
    intro i
    rw [List.getElem?_set, foldl_push_back, List.nil_append]
    by_cases him : m = i
    · subst him
      have h1 : m < other.length := by omega
      simp only [if_true, hl, h1, Nat.lt_succ_self, chainAt_of_lt other m h1]
      rw [List.getElem?_eq_getElem h1]
    · simp only [him, if_false, hg i]
      by_cases h2 : i < m
      · simp [h2, Nat.lt_succ_of_lt h2]
      · have h3 : ¬ i < m + 1 := by omega
        simp [h2, h3]

theorem copy_chains_eq (other t : List (List (K × V))) (ht : t.length = other.length) :
    copy_chains other t = other := by
  unfold copy_chains
  obtain ⟨hl, hg⟩ := copy_chains_aux other t other.length (Nat.le_refl _) ht
  apply List.ext_getElem? 
  intro i
  rw [hg i]
  by_cases h : i < other.length
  · simp [h]
  · simp only [h, if_false]
    rw [List.getElem?_eq_none (by omega), List.getElem?_eq_none (by omega)]

theorem copy_table (m : HashMap K V) : m.copy.table = m.table := by
  unfold HashMap.copy
  exact copy_chains_eq _ _ (resize_length _ _)

theorem copy_eq (m : HashMap K V) :
    m.copy = { m with maxload := 1, minload := 8 } := by
  have h := copy_table m
  unfold HashMap.copy at h ⊢
  simp only at h
  rw [h]

theorem assign_eq (self m : HashMap K V) :
    self.assign m = { self with table := m.table, number := m.number } := by
  unfold HashMap.assign
  simp only [copy_table, copy_eq]
  rw [copy_chains_eq _ _ (resize_length _ _)]

theorem end_congr (s s' : HashMap K V) (h : s'.table = s.table) : s'.end_ = s.end_ := by
  unfold HashMap.end_; rw [h]

theorem begin_congr (s s' : HashMap K V) (h : s'.table = s.table) : s'.begin = s.begin := by
  unfold HashMap.begin; rw [h]

theorem traverse_from_congr (s s' : HashMap K V) (h : s'.table = s.table) (fuel : Nat)
    (it : Iterator) : s'.traverse_from fuel it = s.traverse_from fuel it := by
  induction fuel generalizing it with
  | zero => simp only [HashMap.traverse_from, end_congr s s' h]
  | succ n ih => simp only [HashMap.traverse_from, end_congr s s' h, h, ih]

theorem traverse_congr (s s' : HashMap K V) (h : s'.table = s.table) (fuel : Nat) :
    s'.traverse fuel = s.traverse fuel := by
  unfold HashMap.traverse
  rw [begin_congr s s' h, traverse_from_congr s s' h]

variable [DecidableEq K]

theorem entry_congr (H : K → Nat) (s s' : HashMap K V) (h : s'.table = s.table) (key : K) :
    s'.entry H key = s.entry H key := by
  unfold HashMap.entry; rw [h]

theorem at_congr (H : K → Nat) (s s' : HashMap K V) (h : s'.table = s.table) (key : K) :
    s'.at H key = s.at H key := by
  rw [HashMap.at_eq, HashMap.at_eq, entry_congr H s s' h]

theorem find_congr (H : K → Nat) (s s' : HashMap K V) (h : s'.table = s.table) (key : K) :
    s'.find H key = s.find H key := by
  unfold HashMap.find HashMap.find_pos
  simp only [h, end_congr s s' h]

end CopyLemmas

section SpecLemmas
variable {K : Type u} {V : Type v} [DecidableEq K]

theorem lookup_append_absent (m : List (K × V)) (p : K × V) (k : K)
    (h : lookup p.1 m = none) :
    lookup k (m ++ [p]) = if k = p.1 then some p else lookup k m := by
  rw [lookup_append]
  by_cases hk : k = p.1
  · rw [hk, h, if_pos rfl]
    simp [lookup, Option.or]
  · have : lookup k [p] = none := by
      rw [lookup_eq_none]; intro q hq
      simp only [List.mem_singleton] at hq
      rw [hq]; exact fun e => hk e.symm
    rw [this, if_neg hk]
    cases lookup k m <;> rfl

theorem lookup_filter_ne (m : List (K × V)) (key k : K) :
    lookup k (m.filter (fun p => decide (p.1 ≠ key))) =
      if k = key then none else lookup k m := by
  induction m with
  | nil => simp [lookup]
  | cons q r ih =>
    by_cases hq : q.1 = key
    · have : List.filter (fun p => decide (p.1 ≠ key)) (q :: r)
          = List.filter (fun p => decide (p.1 ≠ key)) r := by
        simp [List.filter_cons, hq]
      rw [this, ih]
      by_cases hk : k = key
      · simp [hk]
      · have hqk : ¬ q.1 = k := by rw [hq]; exact fun e => hk e.symm
        simp [hk, lookup, hqk]
    · have : List.filter (fun p => decide (p.1 ≠ key)) (q :: r)
          = q :: List.filter (fun p => decide (p.1 ≠ key)) r := by
        simp [List.filter_cons, hq]
      rw [this]
      by_cases hqk : q.1 = k
      · have hk : ¬ k = key := by rw [← hqk]; exact hq
        simp [lookup, hqk, hk]
      · have e1 : lookup k (q :: List.filter (fun p => decide (p.1 ≠ key)) r)
            = lookup k (List.filter (fun p => decide (p.1 ≠ key)) r) := by
          simp [lookup, hqk]
        have e2 : lookup k (q :: r) = lookup k r := by simp [lookup, hqk]
        rw [e1, e2, ih]

theorem lookup_map_keys (m : List (K × V)) (f : K × V → K × V) (hf : ∀ p, (f p).1 = p.1)
    (k : K) : lookup k (m.map f) = (lookup k m).map f := by
  induction m with
  | nil => simp [lookup]
  | cons q r ih =>
    by_cases hq : q.1 = k
    · have e1 : lookup k (List.map f (q :: r)) = some (f q) := by
        rw [List.map_cons]
        unfold lookup
        rw [List.find?_cons_of_pos]
        simp [hf, hq]
      have e2 : lookup k (q :: r) = some q := by
        unfold lookup
        rw [List.find?_cons_of_pos]
        simp [hq]
      rw [e1, e2]; rfl
    · have e1 : lookup k (List.map f (q :: r)) = lookup k (List.map f r) := by
        rw [List.map_cons]
        unfold lookup
        rw [List.find?_cons_of_neg]
        simp [hf, hq]
      have e2 : lookup k (q :: r) = lookup k r := by
        unfold lookup
        rw [List.find?_cons_of_neg]
        simp [hq]
      rw [e1, e2, ih]

theorem lookup_map_set (m : List (K × V)) (key k : K) (v : V) :
    lookup k (m.map (fun p => if p.1 = key then (p.1, v) else p)) =
      if k = key then (lookup key m).map (fun p => (key, v)) else lookup k m := by
  rw [lookup_map_keys m _ (fun p => by split <;> rfl)]
  by_cases hk : k = key
  · rw [hk, if_pos rfl]
    cases hl : lookup key m with
    | none => rfl
    | some q =>
      have := (lookup_key _ _ _ hl).1
      simp [this]
  · rw [if_neg hk]
    cases hl : lookup k m with
    | none => rfl
    | some q =>
      have hq := (lookup_key _ _ _ hl).1
      have : ¬ q.1 = key := by rw [hq]; exact hk
      simp [this]

theorem map_set_keys (m : List (K × V)) (key : K) (v : V) :
    (m.map (fun p => if p.1 = key then (p.1, v) else p)).map Prod.fst = m.map Prod.fst := by
  rw [List.map_map]
  apply List.map_congr_left
  intro p _
  simp only [Function.comp]
  split <;> rfl

theorem append_absent_nodup (m : List (K × V)) (p : K × V)
    (hn : (m.map Prod.fst).Nodup) (h : lookup p.1 m = none) :
    ((m ++ [p]).map Prod.fst).Nodup := by
  rw [List.map_append, List.nodup_append]
  refine ⟨hn, by simp, ?_⟩
  intro a ha hb
  simp only [List.map_cons, List.map_nil, List.mem_singleton] at hb
  obtain ⟨q, hq, rfl⟩ := List.mem_map.1 ha
  exact (lookup_eq_none _ _).1 h q hq hb

theorem specStep_nodup (dflt : V) (m : List (K × V)) (op : Op K V)
    (hn : (m.map Prod.fst).Nodup) : ((specStep dflt m op).map Prod.fst).Nodup := by
  have hins : ∀ p : K × V,
      ((if (lookup p.1 m).isSome then m else m ++ [p]).map Prod.fst).Nodup := by
    intro p
    split
    · exact hn
    · rename_i h
      exact append_absent_nodup m p hn (by simpa using h)
  cases op with
  | insert k v => exact hins (k, v)
  | erase k =>
    simp only [specStep]
    exact hn.sublist ((List.filter_sublist m).map Prod.fst)
  | index k w =>
    cases w with
    | none => exact hins (k, dflt)
    | some v =>
      simp only [specStep]
      rw [map_set_keys]
      exact hins (k, dflt)
  | clear => simp [specStep]

theorem I4_of_perm_nodup (s : HashMap K V) (live : List K)
    (hk : (s.table.flatten.map Prod.fst).Perm live) (hn : live.Nodup) : I4 s :=
  I4_of_keys_nodup s (hk.nodup_iff.2 hn)

theorem insert_entry (H : K → Nat) (s : HashMap K V) (p : K × V) (h1 : I1 H s) (h3 : I3 s)
    (k : K) :
    (s.insert H p).entry H k =
      if k = p.1 then (if (s.entry H p.1).isSome then s.entry H p.1 else some p)
      else s.entry H k := by
  by_cases hk : k = p.1
  · subst hk
    simp only [if_true]
    by_cases habs : s.entry H p.1 = none
    · rw [insert_entry_same H s p h1 h3 habs, habs]
      rfl
    · rw [insert_present H s p habs]
      obtain ⟨q, hq⟩ := Option.ne_none_iff_exists'.1 habs
      rw [hq]; rfl
  · rw [if_neg hk]
    exact insert_entry_other H s p h1 h3 k hk

theorem erase_entry (H : K → Nat) (s : HashMap K V) (key : K) (h1 : I1 H s) (h3 : I3 s)
    (h4 : I4 s) (k : K) :
    (s.erase H key).entry H k = if k = key then none else s.entry H k := by
  by_cases hk : k = key
  · subst hk
    rw [if_pos rfl]
    exact erase_entry_same H s k h1 h3 h4
  · rw [if_neg hk]
    exact erase_entry_other H s key h1 h3 h4 k hk

theorem insert_I3 (H : K → Nat) (s : HashMap K V) (p : K × V) (h3 : I3 s) :
    I3 (s.insert H p) := by
  by_cases habs : s.entry H p.1 = none
  · rw [insert_absent H s p habs]
    exact fit_load_I3 H _ (push_I3 s _ p h3)
  · rw [insert_present H s p habs]; exact h3

theorem index_write_entry (H : K → Nat) (dflt : V) (s : HashMap K V) (key : K) (v : V)
    (h1 : I1 H s) (h3 : I3 s) (k : K) :
    ((s.index H dflt key).1.write (s.index H dflt key).2 v).entry H k =
      if k = key then some (key, v) else (s.insert H (key, dflt)).entry H k := by
  obtain ⟨hslot, p, hp, _, _⟩ := index_slot H dflt s key h1 h3
  have h3' : I3 (s.index H dflt key).1 := by
    rw [index_state]; exact insert_I3 H s _ h3
  have hne : (s.index H dflt key).1.entry H key ≠ none := by simp [hp]
  rw [hslot]
  by_cases hk : k = key
  · subst hk
    rw [if_pos rfl]
    exact write_entry_same H _ k v h3' hne
  · rw [if_neg hk, write_entry_other H _ key k v h3' hk, index_state]

theorem apply_refines (H : K → Nat) (dflt : V) (s : HashMap K V) (op : Op K V)
    (m : List (K × V)) (h1 : I1 H s) (h3 : I3 s) (h4 : I4 s)
    (hr : ∀ k, s.entry H k = lookup k m) (k : K) :
    (s.apply H dflt op).entry H k = lookup k (specStep dflt m op) := by
  have hins : ∀ (p : K × V) (k : K), (s.insert H p).entry H k =
      lookup k (if (lookup p.1 m).isSome then m else m ++ [p]) := by
    intro p k
    rw [insert_entry H s p h1 h3 k, hr p.1, hr k]
    cases hl : lookup p.1 m with
    | none =>
      have e : (if (none : Option (K × V)).isSome = true then m else m ++ [p]) = m ++ [p] := rfl
      rw [e, lookup_append_absent m p k hl]
      rfl
    | some q =>
      have e : (if (some q).isSome = true then m else m ++ [p]) = m := rfl
      rw [e]
      split
      · rename_i hk; rw [hk, hl]; rfl
      · rfl
  cases op with
  | insert k' v => exact hins (k', v) k
  | erase k' =>
    simp only [HashMap.apply, specStep]
    rw [erase_entry H s k' h1 h3 h4 k, lookup_filter_ne, hr k]
  | index k' w =>
    cases w with
    | none =>
      simp only [HashMap.apply, specStep]
      rw [index_state]
      exact hins (k', dflt) k
    | some v =>
      simp only [HashMap.apply, specStep]
      rw [index_write_entry H dflt s k' v h1 h3 k, lookup_map_set]
      by_cases hk : k = k'
      · rw [hk, if_pos rfl, if_pos rfl, ← hins (k', dflt) k']
        obtain ⟨_, q, hq, _, _⟩ := index_slot H dflt s k' h1 h3
        rw [index_state] at hq
        rw [hq]; rfl
      · rw [if_neg hk, if_neg hk]
        exact hins (k', dflt) k
  | clear =>
    simp only [HashMap.apply, specStep, HashMap.clear, HashMap.entry]
    simp [lookup, chainAt]

theorem run_refines (H : K → Nat) (dflt : V) (ops : List (Op K V)) :
    (∀ k, (HashMap.run H dflt ops).entry H k = lookup k (specRun dflt ops)) ∧
    ((specRun dflt ops).map Prod.fst).Nodup := by
  induction ops using List.reverseRecOn with
  | nil =>
    refine ⟨?_, by simp [specRun]⟩
    intro k
    simp [HashMap.run, HashMap.new, HashMap.entry, specRun, lookup, chainAt]
  | append_singleton ops op ih =>
    obtain ⟨h1, h2, h3, hk, hn⟩ := run_invariant H dflt ops
    have h4 := I4_of_perm_nodup _ _ hk hn
    have hr : HashMap.run H dflt (ops ++ [op]) = (HashMap.run H dflt ops).apply H dflt op := by
      simp [HashMap.run, List.foldl_append]
    have hs : specRun dflt (ops ++ [op]) = specStep dflt (specRun dflt ops) op := by
      simp [specRun, List.foldl_append]
    rw [hr, hs]
    exact ⟨apply_refines H dflt _ op _ h1 h3 h4 ih.1, specStep_nodup dflt _ op ih.2⟩

theorem run_entries_perm (H : K → Nat) (dflt : V) (ops : List (Op K V)) :
    (HashMap.run H dflt ops).table.flatten.Perm (specRun dflt ops) := by
  obtain ⟨h1, h2, h3, hk, hn⟩ := run_invariant H dflt ops
  obtain ⟨hr, hsn⟩ := run_refines H dflt ops
  have hkn : ((HashMap.run H dflt ops).table.flatten.map Prod.fst).Nodup := hk.nodup_iff.2 hn
  rw [List.perm_ext_iff_of_nodup (List.Nodup.of_map _ hkn) (List.Nodup.of_map _ hsn)]
  intro p
  have a := lookup_eq_some_iff p.1 _ hkn p
  have b := lookup_eq_some_iff p.1 _ hsn p
  rw [lookup_flatten H _ h1, hr] at a
  constructor
  · intro hp
    exact (b.1 (a.2 ⟨hp, rfl⟩)).1
  · intro hp
    exact (a.1 (b.2 ⟨hp, rfl⟩)).1

end SpecLemmas

section InvariantLemmas
variable {K : Type u} {V : Type v} [DecidableEq K]

theorem I4_congr (s s' : HashMap K V)
    (h : s'.table.map (List.map Prod.fst) = s.table.map (List.map Prod.fst))
    (h4 : I4 s) : I4 s' := by
  intro c hc
  have hm : c.map Prod.fst ∈ s'.table.map (List.map Prod.fst) := List.mem_map_of_mem _ hc
  rw [h] at hm
  obtain ⟨d, hd, hdc⟩ := List.mem_map.1 hm
  rw [← hdc]
  exact h4 d hd

theorem insert_I1_I4 (H : K → Nat) (s : HashMap K V) (p : K × V)
    (h1 : I1 H s) (h3 : I3 s) (h4 : I4 s) :
    I1 H (s.insert H p) ∧ I3 (s.insert H p) ∧ I4 (s.insert H p) := by
  by_cases habs : s.entry H p.1 = none
  · obtain ⟨hperm, a, b, _⟩ := insert_absent_spec H s p h1 h3 habs
    refine ⟨a, b, I4_of_keys_nodup _ ?_⟩
    rw [(hperm.map Prod.fst).nodup_iff, List.map_cons, List.nodup_cons]
    refine ⟨?_, keys_nodup_of_I1_I4 H s h1 h4⟩
    rw [mem_keys_iff_entry H s h1]
    simpa using habs
  · rw [insert_present H s p habs]
    exact ⟨h1, h3, h4⟩

theorem erase_I1_I4 (H : K → Nat) (s : HashMap K V) (key : K)
    (h1 : I1 H s) (h3 : I3 s) (h4 : I4 s) :
    I1 H (s.erase H key) ∧ I3 (s.erase H key) ∧ I4 (s.erase H key) := by
  by_cases habs : s.entry H key = none
  · rw [erase_absent H s key habs]
    exact ⟨h1, h3, h4⟩
  · obtain ⟨x, _, hperm, a, b, _⟩ := erase_present_spec H s key h1 h3 habs
    refine ⟨a, b, I4_of_keys_nodup _ ?_⟩
    have hn := keys_nodup_of_I1_I4 H s h1 h4
    rw [(hperm.map Prod.fst).nodup_iff, List.map_cons, List.nodup_cons] at hn
    exact hn.2

theorem write_I1_I4 (H : K → Nat) (s : HashMap K V) (slot : Nat × Nat) (v : V)
    (h1 : I1 H s) (h3 : I3 s) (h4 : I4 s) :
    I1 H (s.write slot v) ∧ I3 (s.write slot v) ∧ I4 (s.write slot v) := by
  have hkeys := write_keys s slot v
  refine ⟨I1_congr H s _ hkeys h1, ?_, I4_congr s _ hkeys h4⟩
  unfold I3 at *
  have : (s.write slot v).table.length = s.table.length := by
    simpa using congrArg List.length hkeys
  rw [this]; exact h3

theorem clear_I1_I4 (H : K → Nat) (s : HashMap K V) :
    I1 H s.clear ∧ I3 s.clear ∧ I4 s.clear := by
  refine ⟨?_, ?_, ?_⟩
  · intro i hi p hp
    simp only [HashMap.clear, List.length_singleton] at hi hp
    have : i = 0 := by omega
    subst this
    simp [chainAt] at hp
  · simp [I3, HashMap.clear]
  · intro c hc
    simp only [HashMap.clear, List.mem_singleton] at hc
    rw [hc]; exact List.nodup_nil

theorem reachable_invariant (H : K → Nat) (dflt : V) (s : HashMap K V)
    (hr : Reachable H dflt s) : I1 H s ∧ I3 s ∧ I4 s := by
  induction hr with
  | new =>
    have := clear_I1_I4 H (HashMap.new : HashMap K V)
    exact this
  | insert s p _ ih => exact insert_I1_I4 H s p ih.1 ih.2.1 ih.2.2
  | erase s k _ ih => exact erase_I1_I4 H s k ih.1 ih.2.1 ih.2.2
  | index s k _ ih =>
    rw [index_state]
    exact insert_I1_I4 H s _ ih.1 ih.2.1 ih.2.2
  | index_write s k v _ ih =>
    have hi := insert_I1_I4 H s (k, dflt) ih.1 ih.2.1 ih.2.2
    rw [← index_state] at hi
    exact write_I1_I4 H _ _ v hi.1 hi.2.1 hi.2.2
  | clear s _ _ => exact clear_I1_I4 H s
  | set_maxload s load _ ih => exact ih
  | set_minload s load _ ih => exact ih

end InvariantLemmas

section NormalLemmas
variable {K : Type u} {V : Type v}

theorem valid_cases (s : HashMap K V) (it : Iterator) (hv : Iterator.valid s.table it) :
    (it.pos < (chainAt s.table it.id).length ∧
      ∃ p, Iterator.deref s.table it = some p) ∨ it = s.end_ := by
  obtain ⟨hl, hid, hpos, hn⟩ := hv
  by_cases hlt : it.pos < (chainAt s.table it.id).length
  · left
    refine ⟨hlt, (chainAt s.table it.id)[it.pos], ?_⟩
    simp only [Iterator.deref]
    rw [List.get?_eq_getElem?, List.getElem?_eq_getElem hlt]
  · right
    have hi : it.id = it.last := hn.resolve_left hlt
    have hlast : s.table.length - 1 = it.last := by omega
    rw [HashMap.end_eq, hlast]
    cases it with
    | mk id last pos =>
      simp only at hi hpos hlt ⊢
      subst hi
      congr 1
      omega

theorem incr_end (s : HashMap K V) : Iterator.incr s.table s.end_ = s.end_ := by
  rw [HashMap.end_eq]
  simp [Iterator.incr]

theorem incr_valid (t : List (List (K × V))) (it : Iterator) (hv : Iterator.valid t it) :
    Iterator.valid t (Iterator.incr t it) := by
  unfold Iterator.incr
  split
  · exact hv
  · rename_i hc
    obtain ⟨hl, hid, hpos, hn⟩ := hv
    have hlt : it.pos < (chainAt t it.id).length := by
      rcases hn with h | h
      · exact h
      · by_contra hlt
        exact hc ⟨h, by omega⟩
    exact (Iterator.skip_spec t it.last hl t.length it.id (it.pos + 1)
      (by omega) hid (by omega)).1

theorem construct_valid (t : List (List (K × V))) (ht : 1 ≤ t.length) (id pos : Nat)
    (hid : id ≤ t.length - 1) (hpos : pos ≤ (chainAt t id).length) :
    Iterator.valid t (Iterator.construct t id (t.length - 1) pos) := by
  unfold Iterator.construct
  exact (Iterator.skip_spec t (t.length - 1) (by omega) t.length id pos
    (by omega) hid hpos).1

end NormalLemmas

section DecisionLemmas
variable {K : Type u} {V : Type v} [DecidableEq K]

/-- The decision of `fit_load` in `size_t` arithmetic: no rebuild exactly when
both tests pass; otherwise twice the bucket count when the first test fails,
and half of it, rounded up, when only the second fails. -/
theorem fit_load_decision (H : K → Nat) (s : HashMap K V) (h3 : I3 s) :
    ((s.fit_load H).2 = false ↔
      (mulSize s.number s.maxload ≤ s.table.length ∧
        mulSize s.number s.minload ≥ s.table.length)) ∧
    ((s.fit_load H).2 = false → (s.fit_load H).1 = s) ∧
    (mulSize s.number s.maxload > s.table.length →
      (s.fit_load H).1.table.length = 2 * s.table.length) ∧
    (mulSize s.number s.maxload ≤ s.table.length →
      mulSize s.number s.minload < s.table.length →
        (s.fit_load H).1.table.length = (s.table.length + 1) / 2 ∧
        s.table.length ≤ 2 * (s.fit_load H).1.table.length ∧
        2 * (s.fit_load H).1.table.length ≤ s.table.length + 1 ∧
        1 ≤ (s.fit_load H).1.table.length) ∧
    (s.number * s.maxload < 2 ^ 64 → mulSize s.number s.maxload = s.number * s.maxload) ∧
    (s.number * s.minload < 2 ^ 64 → mulSize s.number s.minload = s.number * s.minload) := by
  unfold I3 at h3
  have hlen := fit_load_length H s
  refine ⟨?_, ?_, ?_, ?_, ?_, ?_⟩
  · unfold HashMap.fit_load
    split
    · rename_i hc; simp [hc]
    · rename_i hc; simp only [Bool.true_eq_false, false_iff]; exact hc
  · intro hf
    rcases fit_load_cases H s with ⟨_, h⟩ | ⟨ht, _⟩
    · exact h
    · rw [hf] at ht; exact absurd ht (by simp)
  · intro hd
    rw [hlen, if_neg (by omega), if_pos hd]
  · intro hd hs
    rw [hlen, if_neg (by omega), if_neg (by omega)]
    omega
  · intro h; exact Nat.mod_eq_of_lt h
  · intro h; exact Nat.mod_eq_of_lt h

end DecisionLemmas

/-! # Claims -/

section Claims
variable {K : Type u} {V : Type v} [DecidableEq K]

/-- C1 (membership after insert): in a map with at least one bucket (I3) whose
entries lie in the chain of their hash (I1), inserting `(k, v)` for a key `k`
that no entry has makes `size()` one larger, makes `find(k)` differ from `end()`
and point at `(k, v)`, makes `at(k)` return `v`, and leaves `at(k')` and
`find(k') == end()` as they were for every other key, rebuild or not. -/
theorem C1_insert_membership (H : K → Nat) (s : HashMap K V) (k : K) (v : V)
    (h1 : I1 H s) (h3 : I3 s) (habs : ¬ s.hasKey k) :
    (s.insert H (k, v)).size = s.size + 1 ∧
    Iterator.eq ((s.insert H (k, v)).find H k) (s.insert H (k, v)).end_ = false ∧
    Iterator.deref (s.insert H (k, v)).table ((s.insert H (k, v)).find H k) = some (k, v) ∧
    (s.insert H (k, v)).at H k = .ok v ∧
    ∀ k', k' ≠ k →
      (s.insert H (k, v)).at H k' = s.at H k' ∧
      Iterator.eq ((s.insert H (k, v)).find H k') (s.insert H (k, v)).end_ =
        Iterator.eq (s.find H k') s.end_ := by
  have habs' : s.entry H (k, v).1 = none := entry_eq_none_of_not_hasKey H s k habs
  have he : (s.insert H (k, v)).entry H k = some (k, v) :=
    insert_entry_same H s (k, v) h1 h3 habs'
  refine ⟨?_, ?_, ?_, ?_, ?_⟩
  · rw [insert_absent H s _ habs']
    simp [HashMap.size, fit_load_number]
  · cases hb : Iterator.eq ((s.insert H (k, v)).find H k) (s.insert H (k, v)).end_ with
    | false => rfl
    | true =>
      rw [HashMap.find_eq_end, he] at hb
      exact absurd hb (by simp)
  · rw [HashMap.deref_find H _ k (by simp [he]), he]
  · rw [HashMap.at_eq, he]
  · intro k' hk'
    have hek : (s.insert H (k, v)).entry H k' = s.entry H k' :=
      insert_entry_other H s (k, v) h1 h3 k' hk'
    exact ⟨by rw [HashMap.at_eq, HashMap.at_eq, hek], find_eq_end_congr H s _ k' hek⟩

/-- C2 (no duplicate insert): in a map (with at least one bucket) where the chain of
`k` already holds an entry with
key `k`, `insert((k, v2))` returns the state unchanged: same bucket array, same
chains, same `number`, same thresholds. -/
theorem C2_insert_present_noop (H : K → Nat) (s : HashMap K V) (k : K) (v2 : V)
    (h3 : I3 s) (hpre : ∃ p ∈ chainAt s.table (H k % s.table.length), p.1 = k) :
    s.insert H (k, v2) = s := by
  apply insert_present
  unfold HashMap.entry
  rw [Ne, lookup_eq_none]
  intro hall
  obtain ⟨p, hp, hk⟩ := hpre
  exact hall p hp hk

/-- Witness of C1: inserting key 3 into `sampleMap` (which triggers a rebuild). -/
theorem C1_insert_membership_witness :
    (sampleMap.insert id (3, 30)).size = sampleMap.size + 1 ∧
    (sampleMap.insert id (3, 30)).at id 3 = .ok 30 ∧
    (sampleMap.insert id (3, 30)).at id 1 = sampleMap.at id 1 :=
  have h := C1_insert_membership id sampleMap 3 30 (by decide) (by decide) (by decide)
  ⟨h.1, h.2.2.2.1, (h.2.2.2.2 1 (by decide)).1⟩

/-- Witness of C2: inserting the present key 1 into `sampleMap`. -/
theorem C2_insert_present_noop_witness : sampleMap.insert id (1, 99) = sampleMap :=
  C2_insert_present_noop id sampleMap 1 99 (by decide) ⟨(1, 10), by decide, by decide⟩

/-- C3 (erase): in a map satisfying I1, I3 and I4, `erase(k)` of a key that no
entry has returns the state unchanged; `erase(k)` of a present key removes
exactly one entry, one with key `k`, and keeps all other entries; `number` is
decremented, so that `size()` drops by exactly one whenever `number` counted
the entries (I2, which every constructor and operation maintains);
`find(k) == end()`, `at(k)` throws `out_of_range`, and `at(k')` is unchanged
for every other key, rebuild or not. -/
theorem C3_erase (H : K → Nat) (s : HashMap K V) (k : K)
    (h1 : I1 H s) (h3 : I3 s) (h4 : I4 s) :
    (¬ s.hasKey k → s.erase H k = s) ∧
    (s.hasKey k →
      (s.erase H k).number = s.number - 1 ∧
      (I2 s → (s.erase H k).size + 1 = s.size ∧ I2 (s.erase H k)) ∧
      (∃ x : K × V, x.1 = k ∧ s.table.flatten.Perm (x :: (s.erase H k).table.flatten)) ∧
      Iterator.eq ((s.erase H k).find H k) (s.erase H k).end_ = true ∧
      (s.erase H k).at H k = .error .out_of_range ∧
      ∀ k', k' ≠ k → (s.erase H k).at H k' = s.at H k') := by
  constructor
  · intro habs
    exact erase_absent H s k (entry_eq_none_of_not_hasKey H s k habs)
  · intro hpre
    have hpre' : s.entry H k ≠ none := (hasKey_iff_entry H s h1 k).1 hpre
    obtain ⟨x, hx, hperm, _, _, hnum, _⟩ := erase_present_spec H s k h1 h3 hpre'
    have hnone := erase_entry_same H s k h1 h3 h4
    refine ⟨hnum, ?_, ⟨x, hx, hperm⟩, (HashMap.find_eq_end H _ k).2 hnone, ?_, ?_⟩
    · intro h2
      have hl := hperm.length_eq
      rw [I2_iff_flatten] at h2 ⊢
      simp only [HashMap.size, hnum]
      rw [h2, hl]
      simp
    · rw [HashMap.at_eq, hnone]
    · intro k' hk'
      rw [HashMap.at_eq, HashMap.at_eq, erase_entry_other H s k h1 h3 h4 k' hk']

/-- Witness of C3: erasing key 1 from `sampleMap`. -/
theorem C3_erase_witness :
    (sampleMap.erase id 1).size + 1 = sampleMap.size ∧
    (sampleMap.erase id 1).at id 1 = .error .out_of_range ∧
    (sampleMap.erase id 1).at id 2 = sampleMap.at id 2 :=
  have h := (C3_erase id sampleMap 1 (by decide) (by decide) (by decide)).2 (by decide)
  ⟨(h.2.1 (by decide)).1, h.2.2.2.2.1, h.2.2.2.2.2 2 (by decide)⟩

/-- Counterexample to C4: after `insert` of the keys 4, 8, 12 the chain of bucket
0 is `[(4,1), (8,2), (12,3)]`; `erase(4)` finds the key at index 0, does not
rebuild, and leaves `[(12,3), (8,2)]`, not `[(8,2), (12,3)]`. -/
theorem C4_erase_order_counterexample :
    chainAt orderMap.table (id 4 % orderMap.table.length) = [(4, 1), (8, 2), (12, 3)] ∧
    orderMap.find_pos id 4 = 0 ∧
    (mulSize (orderMap.number - 1) orderMap.maxload ≤ orderMap.table.length ∧
      mulSize (orderMap.number - 1) orderMap.minload ≥ orderMap.table.length) ∧
    chainAt (orderMap.erase id 4).table (id 4 % orderMap.table.length) = [(12, 3), (8, 2)] ∧
    chainAt (orderMap.erase id 4).table (id 4 % orderMap.table.length) ≠
      List.eraseIdx [(4, 1), (8, 2), (12, 3)] 0 := by
  decide

/-- C4 as amended: when `erase(k)` finds the key at index `pos` of its chain `c`
and the rebuild policy does not rebuild, the chain afterwards is `c[0..pos)` in
the original order followed by `c(pos..end)` in reverse order, and every other
chain is untouched. -/
theorem C4_erase_chain_reversed_tail (H : K → Nat) (s : HashMap K V) (k : K) (h3 : I3 s)
    (hpos : s.find_pos H k < (chainAt s.table (H k % s.table.length)).length)
    (hno : mulSize (s.number - 1) s.maxload ≤ s.table.length ∧
      mulSize (s.number - 1) s.minload ≥ s.table.length) :
    (s.erase H k).table = s.table.set (H k % s.table.length)
      ((chainAt s.table (H k % s.table.length)).take (s.find_pos H k) ++
        ((chainAt s.table (H k % s.table.length)).drop (s.find_pos H k + 1)).reverse) := by
  unfold HashMap.erase
  simp only [ne_eq, Nat.ne_of_lt hpos, not_false_eq_true, if_true]
  unfold HashMap.fit_load
  simp only [List.length_set, hno, and_self, if_true]
  rw [erase_chain_eq _ _ hpos]

/-- Witness of C4 as amended: `erase(4)` on `orderMap`. -/
theorem C4_erase_chain_reversed_tail_witness :
    (orderMap.erase id 4).table = orderMap.table.set (id 4 % orderMap.table.length)
      ((chainAt orderMap.table (id 4 % orderMap.table.length)).take (orderMap.find_pos id 4) ++
        ((chainAt orderMap.table (id 4 % orderMap.table.length)).drop
          (orderMap.find_pos id 4 + 1)).reverse) :=
  C4_erase_chain_reversed_tail id orderMap 4 (by decide) (by decide) (by decide)

/-- C5 (`at` / `find` contract): in a map satisfying I1 and I3, `at(k)` throws
`out_of_range` exactly when no entry has key `k`, which is exactly when
`find(k) == end()`; otherwise `find(k)` points at an entry with key `k` and
`at(k)` returns the value of that entry.  (`find` and `at` are functions of the
state and return no new state.) -/
theorem C5_at_find_contract (H : K → Nat) (s : HashMap K V) (k : K)
    (h1 : I1 H s) (h3 : I3 s) :
    (s.at H k = .error .out_of_range ↔ ¬ s.hasKey k) ∧
    (¬ s.hasKey k ↔ Iterator.eq (s.find H k) s.end_ = true) ∧
    (s.hasKey k → ∃ p, Iterator.deref s.table (s.find H k) = some p ∧ p.1 = k ∧
      s.at H k = .ok p.2) := by
  have hk := hasKey_iff_entry H s h1 k
  refine ⟨?_, ?_, ?_⟩
  · rw [HashMap.at_eq, hk]
    cases s.entry H k <;> simp
  · rw [HashMap.find_eq_end, hk]
    simp
  · intro hpre
    have hne := hk.1 hpre
    obtain ⟨p, hp⟩ := Option.ne_none_iff_exists'.1 hne
    refine ⟨p, ?_, (lookup_key _ _ _ hp).1, ?_⟩
    · rw [HashMap.deref_find H s k hne, hp]
    · rw [HashMap.at_eq, hp]

/-- Witness of C5: key 7 is absent from `sampleMap` and `at(7)` throws. -/
theorem C5_at_find_contract_witness :
    (sampleMap.at id 7 = .error .out_of_range ↔ ¬ sampleMap.hasKey 7) ∧
    (¬ sampleMap.hasKey 7 ↔ Iterator.eq (sampleMap.find id 7) sampleMap.end_ = true) :=
  have h := C5_at_find_contract id sampleMap 7 (by decide) (by decide)
  ⟨h.1, h.2.1⟩

/-- C6 (`operator[]`): in a map satisfying I1 and I3, `m[k]` for a present key
leaves the map unchanged and returns the slot of the stored value of `k`; for
an absent key it makes `size()` one larger and `at(k)` the default value.  In
both cases the returned slot is the value slot of an entry with key `k` of the
resulting table: writing `v` through it makes `at(k)` return `v` and changes
`at(k')` for no other key, rebuild or not. -/
theorem C6_index (H : K → Nat) (dflt : V) (s : HashMap K V) (k : K)
    (h1 : I1 H s) (h3 : I3 s) :
    (s.hasKey k → (s.index H dflt k).1 = s ∧
      ∃ p, (chainAt s.table (s.index H dflt k).2.1).get? (s.index H dflt k).2.2 = some p ∧
        p.1 = k ∧ s.at H k = .ok p.2) ∧
    (¬ s.hasKey k → (s.index H dflt k).1.size = s.size + 1 ∧
      (s.index H dflt k).1.at H k = .ok dflt) ∧
    (∃ p, (chainAt (s.index H dflt k).1.table (s.index H dflt k).2.1).get?
        (s.index H dflt k).2.2 = some p ∧ p.1 = k) ∧
    (∀ v, ((s.index H dflt k).1.write (s.index H dflt k).2 v).at H k = .ok v ∧
      ∀ k', k' ≠ k →
        ((s.index H dflt k).1.write (s.index H dflt k).2 v).at H k' =
          (s.index H dflt k).1.at H k') := by
  obtain ⟨hslot, p, hp, hnew, hold⟩ := index_slot H dflt s k h1 h3
  have hk := hasKey_iff_entry H s h1 k
  have h3' : I3 (s.index H dflt k).1 := by
    rw [index_state]
    by_cases habs : s.entry H (k, dflt).1 = none
    · rw [insert_absent H s _ habs]
      exact fit_load_I3 H _ (push_I3 s _ _ h3)
    · rw [insert_present H s _ habs]; exact h3
  have hget : (chainAt (s.index H dflt k).1.table (s.index H dflt k).2.1).get?
      (s.index H dflt k).2.2 = some p := by
    rw [hslot]
    simp only
    unfold HashMap.find_pos
    rw [get?_find_pos_loop]
    exact hp
  have hpk : p.1 = k := (lookup_key _ _ _ hp).1
  refine ⟨?_, ?_, ⟨p, hget, hpk⟩, ?_⟩
  · intro hpre
    have hne := hk.1 hpre
    have hst : (s.index H dflt k).1 = s := by
      rw [index_state]; exact insert_present H s (k, dflt) hne
    refine ⟨hst, p, ?_, hpk, ?_⟩
    · rw [hst] at hget; exact hget
    · rw [HashMap.at_eq, hold hne]
  · intro habs
    have hnone : s.entry H k = none := by
      by_contra hne
      exact habs (hk.2 hne)
    constructor
    · rw [index_state, insert_absent H s (k, dflt) hnone]
      simp [HashMap.size, fit_load_number]
    · rw [HashMap.at_eq, hp, hnew hnone]
  · intro v
    have hne : (s.index H dflt k).1.entry H k ≠ none := by simp [hp]
    rw [hslot]
    constructor
    · rw [HashMap.at_eq, write_entry_same H _ k v h3' hne]
    · intro k' hk'
      rw [HashMap.at_eq, HashMap.at_eq, write_entry_other H _ k k' v h3' hk']

/-- Witness of C6: `m[3] = 7` on `sampleMap` (the insertion rebuilds). -/
theorem C6_index_witness :
    (sampleMap.index id 0 3).1.size = sampleMap.size + 1 ∧
    ((sampleMap.index id 0 3).1.write (sampleMap.index id 0 3).2 7).at id 3 = .ok 7 :=
  have h := C6_index id 0 sampleMap 3 (by decide) (by decide)
  ⟨(h.2.1 (by decide)).1, (h.2.2.2 7).1⟩

/-- C7 (size consistency and traversal completeness): for every hash function
and every sequence of `insert`, `erase`, `operator[]` and `clear` calls on the
default-constructed map, `number` is the sum of the chain lengths (I2), `size()`
is the number of distinct keys inserted and not subsequently erased, and the
traversal from `begin()` to `end()` returns exactly the stored entries, `size()`
of them, with pairwise distinct keys that are exactly the live keys. -/
theorem C7_size_traversal (H : K → Nat) (dflt : V) (ops : List (Op K V)) :
    I2 (HashMap.run H dflt ops) ∧
    (HashMap.run H dflt ops).size = (liveKeys ops).length ∧
    (liveKeys ops).Nodup ∧
    (∀ k, k ∈ liveKeys ops ↔
      ∃ pre op post, ops = pre ++ op :: post ∧ op.inserts k ∧ ∀ o ∈ post, ¬ o.removes k) ∧
    ∀ fuel, (HashMap.run H dflt ops).size ≤ fuel →
      (HashMap.run H dflt ops).traverse fuel = some (HashMap.run H dflt ops).table.flatten ∧
      (HashMap.run H dflt ops).table.flatten.length = (HashMap.run H dflt ops).size ∧
      ((HashMap.run H dflt ops).table.flatten.map Prod.fst).Nodup ∧
      ((HashMap.run H dflt ops).table.flatten.map Prod.fst).Perm (liveKeys ops) := by
  obtain ⟨h1, h2, h3, hk, hn⟩ := run_invariant H dflt ops
  have hlen : (HashMap.run H dflt ops).table.flatten.length = (HashMap.run H dflt ops).size :=
    ((I2_iff_flatten _).1 h2).symm
  refine ⟨h2, ?_, hn, mem_liveKeys ops, ?_⟩
  · rw [← hlen, ← hk.length_eq, List.length_map]
  · intro fuel hf
    refine ⟨(traversal_spec _ h3).1 fuel ?_, hlen, hk.nodup_iff.2 hn, hk⟩
    rw [← List.length_flatten, hlen]
    exact hf

/-- C8 at the list `{(1,"x"),(1,"y")}`: both constructors push both pairs into
the chain of key 1, so `size()` is 2 and that chain holds two entries with key
1 (I4 fails); `at(1)` is `"x"`. -/
theorem C8_constructor_keeps_duplicates :
    (HashMap.of_initializer_list id [(1, "x"), (1, "y")]).table
      = [[], [(1, "x"), (1, "y")]] ∧
    (HashMap.of_initializer_list id [(1, "x"), (1, "y")]).size = 2 ∧
    (HashMap.of_initializer_list id [(1, "x"), (1, "y")]).at id 1 = .ok "x" ∧
    ¬ I4 (HashMap.of_initializer_list id [(1, "x"), (1, "y")]) ∧
    (HashMap.of_range id [(1, "x"), (1, "y")]).table = [[], [(1, "x"), (1, "y")]] ∧
    (HashMap.of_range id [(1, "x"), (1, "y")]).size = 2 ∧
    ¬ I4 (HashMap.of_range id [(1, "x"), (1, "y")]) :=
  ⟨by rfl, by decide, by rfl, by decide, by rfl, by decide, by decide⟩

/-- Counterexample to C9: after `insert` of the keys 1, 2, 3 and `erase` of the
keys 1, 2, 3 under the default thresholds the map has 2 buckets and no element:
`bucket_count` is not 1 and `bucket_count <= element_count * min_load` fails. -/
theorem C9_load_bound_counterexample :
    (HashMap.run id 0 drainOps).table.length = 2 ∧
    (HashMap.run id 0 drainOps).number = 0 ∧
    (HashMap.run id 0 drainOps).maxload = 1 ∧ (HashMap.run id 0 drainOps).minload = 8 ∧
    ¬ ((HashMap.run id 0 drainOps).table.length = 1 ∨
      ((HashMap.run id 0 drainOps).number * (HashMap.run id 0 drainOps).maxload
          ≤ (HashMap.run id 0 drainOps).table.length ∧
        (HashMap.run id 0 drainOps).table.length
          ≤ (HashMap.run id 0 drainOps).number * (HashMap.run id 0 drainOps).minload)) := by
  decide

/-- C9 as amended: under the default thresholds, after every sequence of fewer
than `2 ^ 61` calls on the default-constructed map (so that no `size_t` product
wraps), `element_count * max_load <= bucket_count`, and either
`bucket_count <= element_count * min_load` or the map has no element (and then
at most 4 buckets). -/
theorem C9_load_bound (H : K → Nat) (dflt : V) (ops : List (Op K V))
    (hb : ops.length < 2 ^ 61) :
    (HashMap.run H dflt ops).maxload = 1 ∧ (HashMap.run H dflt ops).minload = 8 ∧
    (HashMap.run H dflt ops).number * (HashMap.run H dflt ops).maxload
      ≤ (HashMap.run H dflt ops).table.length ∧
    ((HashMap.run H dflt ops).table.length
        ≤ (HashMap.run H dflt ops).number * (HashMap.run H dflt ops).minload ∨
      ((HashMap.run H dflt ops).number = 0 ∧ (HashMap.run H dflt ops).table.length ≤ 4)) := by
  obtain ⟨a, b, _, d, e⟩ := run_load H dflt ops hb
  rw [a, b]
  refine ⟨rfl, rfl, by omega, ?_⟩
  rcases e with e | e
  · left; omega
  · right; exact e

/-- Witness of C9 as amended: the six calls of `drainOps`. -/
theorem C9_load_bound_witness :
    (HashMap.run id 0 drainOps).number * (HashMap.run id 0 drainOps).maxload
      ≤ (HashMap.run id 0 drainOps).table.length ∧
    ((HashMap.run id 0 drainOps).table.length
        ≤ (HashMap.run id 0 drainOps).number * (HashMap.run id 0 drainOps).minload ∨
      ((HashMap.run id 0 drainOps).number = 0 ∧
        (HashMap.run id 0 drainOps).table.length ≤ 4)) :=
  (C9_load_bound id 0 drainOps (by decide)).2.2

/-- C10 (traversal order and termination): for every bucket array with at least
one bucket, the loop from `begin()` that applies `++` until the iterator equals
`end()` ends after exactly (sum of chain lengths) increments: the iterator after
`n` increments differs from `end()` and dereferences to the `n`-th entry of
`chain[0] ++ chain[1] ++ ...` for every smaller `n`, and equals `end()` at that
`n`; the visited entries are exactly that concatenation, and every iterator on
the way is normalized. -/
theorem C10_traversal_order (s : HashMap K V) (h3 : I3 s) :
    (∀ fuel, (s.table.map List.length).sum ≤ fuel →
      s.traverse fuel = some s.table.flatten) ∧
    (∀ n, n < (s.table.map List.length).sum →
      Iterator.eq ((Iterator.incr s.table)^[n] s.begin) s.end_ = false ∧
      Iterator.deref s.table ((Iterator.incr s.table)^[n] s.begin) = s.table.flatten.get? n) ∧
    Iterator.eq ((Iterator.incr s.table)^[(s.table.map List.length).sum] s.begin) s.end_
      = true ∧
    ∀ n, n ≤ (s.table.map List.length).sum →
      Iterator.valid s.table ((Iterator.incr s.table)^[n] s.begin) := by
  obtain ⟨a, b, c⟩ := traversal_spec s h3
  refine ⟨a, b, c, ?_⟩
  intro n hn
  obtain ⟨hv, hr⟩ := begin_valid s h3
  exact (iterate_incr_spec s.table _ hv n
    (by rw [hr, List.length_flatten]; exact hn)).1

/-- Witness of C10: the traversal of `orderMap` (4 buckets, 3 entries in bucket 0). -/
theorem C10_traversal_order_witness :
    orderMap.traverse 3 = some [(4, 1), (8, 2), (12, 3)] ∧
    Iterator.eq ((Iterator.incr orderMap.table)^[3] orderMap.begin) orderMap.end_ = true :=
  have h := C10_traversal_order orderMap (by decide)
  ⟨h.1 3 (by decide), h.2.2.1⟩

/-- C11 (specification scenario): for every hash function, after `insert` of
`(1,"a")`, `(2,"b")`, `(3,"c")`, `(4,"d")`, `(5,"e")` into the empty map,
`size()` is 5, `at(3)` is `"c"` and `find(10) == end()`; after `erase(3)`,
`size()` is 4, `at(3)` throws `out_of_range`, and the traversal from `begin()`
to `end()` visits a permutation of the four pairs `(1,"a")`, `(2,"b")`,
`(4,"d")`, `(5,"e")`. -/
theorem C11_scenario (H : Nat → Nat) :
    (scenarioMap H).size = 5 ∧
    (scenarioMap H).at H 3 = .ok "c" ∧
    Iterator.eq ((scenarioMap H).find H 10) (scenarioMap H).end_ = true ∧
    ((scenarioMap H).erase H 3).size = 4 ∧
    ((scenarioMap H).erase H 3).at H 3 = .error .out_of_range ∧
    ∃ l : List (Nat × String),
      l.Perm [(1, "a"), (2, "b"), (4, "d"), (5, "e")] ∧
      ∀ fuel, 4 ≤ fuel → ((scenarioMap H).erase H 3).traverse fuel = some l := by
  have e5 : scenarioMap H = HashMap.run H "" scenarioInserts := by
    unfold scenarioMap HashMap.run scenarioInserts
    simp only [List.foldl_cons, List.foldl_nil, HashMap.apply]
  have e4 : (scenarioMap H).erase H 3 = HashMap.run H "" (scenarioInserts ++ [.erase 3]) := by
    rw [e5]
    unfold HashMap.run
    simp only [List.foldl_append, List.foldl_cons, List.foldl_nil, HashMap.apply]
  have s5 : specRun "" scenarioInserts
      = [(1, "a"), (2, "b"), (3, "c"), (4, "d"), (5, "e")] := rfl
  have s4 : specRun "" (scenarioInserts ++ [.erase 3])
      = [(1, "a"), (2, "b"), (4, "d"), (5, "e")] := rfl
  obtain ⟨_, h25, _, _, _⟩ := run_invariant H "" scenarioInserts
  obtain ⟨_, h24, h34, _, _⟩ := run_invariant H "" (scenarioInserts ++ [.erase 3])
  have p5 := run_entries_perm H "" scenarioInserts
  have p4 := run_entries_perm H "" (scenarioInserts ++ [.erase 3])
  have r5 := (run_refines H "" scenarioInserts).1
  have r4 := (run_refines H "" (scenarioInserts ++ [.erase 3])).1
  rw [s5] at p5 r5
  rw [s4] at p4 r4
  rw [e4, e5]
  refine ⟨?_, ?_, ?_, ?_, ?_, _, p4, ?_⟩
  · rw [HashMap.size, (I2_iff_flatten _).1 h25, p5.length_eq]; rfl
  · rw [HashMap.at_eq, r5 3]; rfl
  · rw [HashMap.find_eq_end, r5 10]; rfl
  · rw [HashMap.size, (I2_iff_flatten _).1 h24, p4.length_eq]; rfl
  · rw [HashMap.at_eq, r4 3]; rfl
  · intro fuel hf
    apply (traversal_spec _ h34).1 fuel
    rw [← List.length_flatten, p4.length_eq]
    exact hf

/-- C12 (copy): the copy-constructed map and the target of a copy assignment
from `m` have the table of `m` (same bucket count, same chains, same entries in
the same order) and its `number`; hence `size()`, `empty()`, `at(k)`,
`find(k)` and the traversal agree with those of `m`.  (The source is passed by
`const&`; the copy is a function of it.) -/
theorem C12_copy (H : K → Nat) (m target : HashMap K V) (k : K) (fuel : Nat) :
    (m.copy.table = m.table ∧ m.copy.number = m.number ∧
      m.copy.size = m.size ∧ m.copy.empty = m.empty ∧
      m.copy.at H k = m.at H k ∧
      Iterator.eq (m.copy.find H k) m.copy.end_ = Iterator.eq (m.find H k) m.end_ ∧
      m.copy.traverse fuel = m.traverse fuel) ∧
    ((target.assign m).table = m.table ∧ (target.assign m).number = m.number ∧
      (target.assign m).size = m.size ∧ (target.assign m).empty = m.empty ∧
      (target.assign m).at H k = m.at H k ∧
      Iterator.eq ((target.assign m).find H k) (target.assign m).end_
        = Iterator.eq (m.find H k) m.end_ ∧
      (target.assign m).traverse fuel = m.traverse fuel) := by
  have hc : m.copy.table = m.table := copy_table m
  have hcn : m.copy.number = m.number := by rw [copy_eq]
  have ha : (target.assign m).table = m.table := by rw [assign_eq]
  have han : (target.assign m).number = m.number := by rw [assign_eq]
  refine ⟨⟨hc, hcn, ?_, ?_, at_congr H m _ hc k, ?_, traverse_congr m _ hc fuel⟩,
    ⟨ha, han, ?_, ?_, at_congr H m _ ha k, ?_, traverse_congr m _ ha fuel⟩⟩
  · simp only [HashMap.size, hcn]
  · simp only [HashMap.empty, hcn]
  · rw [find_congr H m _ hc, end_congr m _ hc]
  · simp only [HashMap.size, han]
  · simp only [HashMap.empty, han]
  · rw [find_congr H m _ ha, end_congr m _ ha]

/-- C13 (`clear`): after `clear()` the bucket array is one empty chain, `number`
is 0 (`size()` is 0, `empty()` is true), `begin() == end()`, `find(k) == end()`
for every key, and the thresholds are unchanged. -/
theorem C13_clear (H : K → Nat) (s : HashMap K V) :
    s.clear.table = [[]] ∧ s.clear.number = 0 ∧ s.clear.size = 0 ∧ s.clear.empty = true ∧
    Iterator.eq s.clear.begin s.clear.end_ = true ∧
    (∀ k, Iterator.eq (s.clear.find H k) s.clear.end_ = true) ∧
    s.clear.maxload = s.maxload ∧ s.clear.minload = s.minload := by
  refine ⟨rfl, rfl, rfl, rfl, rfl, ?_, rfl, rfl⟩
  intro k
  rw [HashMap.find_eq_end]
  simp [HashMap.entry, HashMap.clear, lookup, chainAt]

/-- C14 at the empty sequence: the range constructor and the initializer-list
constructor over no element execute `table.resize(0)` and leave a bucket array
with no bucket, so I3 fails. -/
theorem C14_empty_sequence_no_bucket (H : K → Nat) :
    (HashMap.of_range H ([] : List (K × V))).table = [] ∧
    (HashMap.of_initializer_list H ([] : List (K × V))).table = [] ∧
    ¬ I3 (HashMap.of_range H ([] : List (K × V))) ∧
    ¬ I3 (HashMap.of_initializer_list H ([] : List (K × V))) ∧
    ¬ I3 (HashMap.of_range H ([] : List (K × V))).copy := by
  have h1 : (HashMap.of_range H ([] : List (K × V))).table = [] := rfl
  have h2 : (HashMap.of_initializer_list H ([] : List (K × V))).table = [] := rfl
  refine ⟨h1, h2, ?_, ?_, ?_⟩
  · simp [I3, h1]
  · simp [I3, h2]
  · simp [I3, copy_table, h1]

/-- C15 at `_maxload = 2 ^ 63`: the calls `set_maxload(2 ^ 63)`, `insert((1,1))`,
`insert((2,2))` end in `overflowMap`, with 2 buckets and 2 elements; there
`element_count * max_load = 2 ^ 64` exceeds `bucket_count`, but the `size_t`
product is 0, so `fit_load` reports no rebuild and keeps 2 buckets instead of 4. -/
theorem C15_rebuild_decision_overflow :
    ((HashMap.new.set_maxload (2 ^ 63)).insert id (1, 1)).insert id (2, 2) = overflowMap ∧
    1 ≤ overflowMap.table.length ∧
    overflowMap.number * overflowMap.maxload > overflowMap.table.length ∧
    mulSize overflowMap.number overflowMap.maxload = 0 ∧
    (overflowMap.fit_load id).2 = false ∧
    (overflowMap.fit_load id).1.table.length = 2 ∧
    (overflowMap.fit_load id).1.table.length ≠ 2 * overflowMap.table.length := by
  decide

/-- C16 (rebuild preserves contents): with at least one bucket, when `fit_load`
rebuilds, the entries after the rebuild are a permutation of the entries before
it, `number` is unchanged, there is at least one bucket, and every entry lies
in the chain of index `hash(key) mod new_bucket_count` (I1), whether or not I1
held before. -/
theorem C16_rebuild_preserves (H : K → Nat) (s : HashMap K V) (h3 : I3 s)
    (hre : (s.fit_load H).2 = true) :
    (s.fit_load H).1.table.flatten.Perm s.table.flatten ∧
    (s.fit_load H).1.number = s.number ∧
    I3 (s.fit_load H).1 ∧
    I1 H (s.fit_load H).1 := by
  refine ⟨fit_load_perm H s h3, fit_load_number H s, fit_load_I3 H s h3, ?_⟩
  unfold I3 at h3
  rcases fit_load_cases H s with ⟨hf, _⟩ | ⟨_, n, hn, h⟩
  · rw [hre] at hf; exact absurd hf (by simp)
  · rw [h]; exact rehash_I1 H s _ n (by omega)

/-- Witness of C16: the rebuild of `sampleMap` with a third element counted; the
entry of key 1 moves to the chain of index 1 of 4. -/
theorem C16_rebuild_preserves_witness :
    (HashMap.fit_load id { sampleMap with number := 3 }).1.number = 3 ∧
    I1 id (HashMap.fit_load id { sampleMap with number := 3 }).1 :=
  have h := C16_rebuild_preserves id { sampleMap with number := 3 } (by decide) (by decide)
  ⟨h.2.1, h.2.2.2⟩

/-- C17 (chain placement and key uniqueness are invariant): if a map has at
least one bucket, every entry in the chain of its hash (I1) and no chain with
two equal keys (I4), the same holds after `insert`, `erase`, `operator[]` (also
after an assignment through its result), `clear`, `set_maxload` and
`set_minload`, rebuild or not; hence it holds for every map reachable from the
default-constructed map by these calls. -/
theorem C17_invariants_preserved (H : K → Nat) (dflt : V) (s : HashMap K V)
    (h1 : I1 H s) (h3 : I3 s) (h4 : I4 s) :
    (∀ p, I1 H (s.insert H p) ∧ I3 (s.insert H p) ∧ I4 (s.insert H p)) ∧
    (∀ k, I1 H (s.erase H k) ∧ I3 (s.erase H k) ∧ I4 (s.erase H k)) ∧
    (∀ k, I1 H (s.index H dflt k).1 ∧ I3 (s.index H dflt k).1 ∧ I4 (s.index H dflt k).1) ∧
    (∀ k v, I1 H ((s.index H dflt k).1.write (s.index H dflt k).2 v) ∧
      I3 ((s.index H dflt k).1.write (s.index H dflt k).2 v) ∧
      I4 ((s.index H dflt k).1.write (s.index H dflt k).2 v)) ∧
    (I1 H s.clear ∧ I3 s.clear ∧ I4 s.clear) ∧
    (∀ load, I1 H (s.set_maxload load) ∧ I3 (s.set_maxload load) ∧ I4 (s.set_maxload load)) ∧
    (∀ load, I1 H (s.set_minload load) ∧ I3 (s.set_minload load) ∧ I4 (s.set_minload load)) ∧
    (∀ r, Reachable H dflt r → I1 H r ∧ I3 r ∧ I4 r) := by
  have hidx : ∀ k, I1 H (s.index H dflt k).1 ∧ I3 (s.index H dflt k).1 ∧
      I4 (s.index H dflt k).1 := by
    intro k
    rw [index_state]
    exact insert_I1_I4 H s _ h1 h3 h4
  refine ⟨fun p => insert_I1_I4 H s p h1 h3 h4, fun k => erase_I1_I4 H s k h1 h3 h4,
    hidx, ?_, clear_I1_I4 H s, fun _ => ⟨h1, h3, h4⟩, fun _ => ⟨h1, h3, h4⟩,
    fun r hr => reachable_invariant H dflt r hr⟩
  intro k v
  exact write_I1_I4 H _ _ v (hidx k).1 (hidx k).2.1 (hidx k).2.2

/-- Witness of C17: `insert` of key 3 into `sampleMap` (which rebuilds). -/
theorem C17_invariants_preserved_witness :
    I1 id (sampleMap.insert id (3, 30)) ∧ I3 (sampleMap.insert id (3, 30)) ∧
    I4 (sampleMap.insert id (3, 30)) :=
  (C17_invariants_preserved id 0 sampleMap (by decide) (by decide) (by decide)).1 (3, 30)

/-- C18 (iterator normalization): over a bucket array with at least one bucket,
the iterator constructed from a bucket cursor `id` not beyond the last bucket,
the last bucket, and an in-chain cursor `pos` with `pos <= length of chain id`
either points at an existing entry (its in-chain cursor is strictly inside its
chain) or is exactly the canonical end (last bucket, end of its chain); `++`
leaves the canonical end unchanged, and applied to an iterator that points at
an entry it again yields an iterator that points at an entry or is the
canonical end. -/
theorem C18_iterator_normalization (s : HashMap K V) (h3 : I3 s) (id pos : Nat)
    (hid : id ≤ s.table.length - 1) (hpos : pos ≤ (chainAt s.table id).length) :
    (((Iterator.construct s.table id (s.table.length - 1) pos).pos <
          (chainAt s.table (Iterator.construct s.table id (s.table.length - 1) pos).id).length ∧
        ∃ p, Iterator.deref s.table
          (Iterator.construct s.table id (s.table.length - 1) pos) = some p) ∨
      Iterator.construct s.table id (s.table.length - 1) pos = s.end_) ∧
    s.end_ = ⟨s.table.length - 1, s.table.length - 1,
      (chainAt s.table (s.table.length - 1)).length⟩ ∧
    Iterator.incr s.table s.end_ = s.end_ ∧
    (∀ it : Iterator, it.last = s.table.length - 1 → it.id ≤ it.last →
      it.pos < (chainAt s.table it.id).length →
        ((Iterator.incr s.table it).pos <
            (chainAt s.table (Iterator.incr s.table it).id).length ∧
          ∃ p, Iterator.deref s.table (Iterator.incr s.table it) = some p) ∨
        Iterator.incr s.table it = s.end_) := by
  refine ⟨valid_cases s _ (construct_valid s.table h3 id pos hid hpos),
    HashMap.end_eq s, incr_end s, ?_⟩
  intro it hl hi hp
  apply valid_cases s _ (incr_valid s.table it ?_)
  unfold I3 at h3
  exact ⟨by omega, hi, Nat.le_of_lt hp, Or.inl hp⟩

/-- Witness of C18: the iterator constructed at the empty bucket 1 of `orderMap`
is the canonical end. -/
theorem C18_iterator_normalization_witness :
    Iterator.construct orderMap.table 1 (orderMap.table.length - 1) 0 = orderMap.end_ ∧
    Iterator.incr orderMap.table orderMap.end_ = orderMap.end_ :=
  have h := C18_iterator_normalization orderMap (by decide) 1 0 (by decide) (by decide)
  ⟨h.1.resolve_left (fun hh => absurd hh.1 (by decide)), h.2.2.1⟩

/-- C19 (load factor at most 1): under the default thresholds, after every
sequence of fewer than `2 ^ 61` calls of `insert`, `erase`, `operator[]` and
`clear` on the default-constructed map (so that no `size_t` product wraps),
`size() <= bucket_count`. -/
theorem C19_size_le_bucket_count (H : K → Nat) (dflt : V) (ops : List (Op K V))
    (hb : ops.length < 2 ^ 61) :
    (HashMap.run H dflt ops).size ≤ (HashMap.run H dflt ops).table.length :=
  (run_load H dflt ops hb).2.2.2.1

/-- Witness of C19: the six calls of `drainOps`. -/
theorem C19_size_le_bucket_count_witness :
    (HashMap.run id 0 drainOps).size ≤ (HashMap.run id 0 drainOps).table.length :=
  C19_size_le_bucket_count id 0 drainOps (by decide)

/-- C20 (copying does not carry the thresholds): whatever thresholds the source
was given by `set_maxload` and `set_minload`, the copy-constructed map has
`get_maxload() == 1` and `get_minload() == 8`, and a copy assignment leaves
`get_maxload()` and `get_minload()` of the target as they were. -/
theorem C20_copy_thresholds (m target : HashMap K V) (a b : Nat) :
    ((m.set_maxload a).set_minload b).copy.get_maxload = 1 ∧
    ((m.set_maxload a).set_minload b).copy.get_minload = 8 ∧
    m.copy.get_maxload = 1 ∧ m.copy.get_minload = 8 ∧
    (target.assign m).get_maxload = target.get_maxload ∧
    (target.assign m).get_minload = target.get_minload :=
  ⟨rfl, rfl, rfl, rfl, rfl, rfl⟩

end Claims
